import Mathlib

/-! kvstore: a sharded in-process key-value store with caller-triggered reaping.

Shallow embedding of `kvstore.go`, `substore.go` and `util.go`.

Modelling conventions.

* A Go `string` key is an immutable byte sequence: `Key := List Byte`.
* A stored `interface{}` value is `Option V`: `none` is the nil interface value, `some v` a
  non-nil dynamic value of an arbitrary payload type `V`.
* `time.Time` is an instant counted in nanoseconds from the zero time of the `time` package
  (the instant for which `IsZero` holds); `time.Duration` is a signed count of nanoseconds.
* `getTimeCoarse()` reads the environment: every function that calls it takes the reading
  as an explicit argument `now`; `getTimeCoarse` itself maps the `Timespec` that the system
  call filled to that reading. Instants are unbounded integers: the 64-bit counters of
  package `time` are taken not to overflow.
* A Go `map[string]T` is an association list with unique keys (`AList`); iteration visits
  the entries in list order, one of the orders Go allows.
* `KVStore.stores`, a `map[uint32]*substore` whose keys are `0 .. numStores-1`, is the list
  of shards by index; writing through the `*substore` pointer is a write-back at that index.
* Locks and goroutines are not modelled: every call runs atomically, and the sweeps of one
  `Reap` run one after the other. Each sweep reads the clock itself, so a `Reap` takes one
  reading per shard: `clock i` is the reading of the sweep of the shard numbered `i`.
* A run-time panic is an `Except.error`.
-/

namespace Kvstore

/-- One byte of a key. -/
abbrev Byte := Fin 256

/-- Go `string` used as a map key: a byte sequence. -/
abbrev Key := List Byte

/-- Go `time.Duration`: signed nanoseconds. -/
abbrev Duration := Int

/-- Go `time.Time` (wall clock only, UTC): nanoseconds since the zero time. -/
structure Time where
  ns : Int
deriving DecidableEq, Repr

/-- The zero value of `time.Time`, which an `item` literal without `expiry` holds. -/
def Time.zero : Time := ⟨0⟩

/-- Go `Time.IsZero`. -/
def Time.IsZero (t : Time) : Bool := t.ns == 0

/-- Go `Time.After`: `t` is strictly later than `u`. -/
def Time.After (t u : Time) : Bool := decide (u.ns < t.ns)

/-- Go `Time.Add`. -/
def Time.Add (t : Time) (d : Duration) : Time := ⟨t.ns + d⟩

/-- Go `syscall.Timespec` as `clock_gettime` fills it: seconds and nanoseconds since the
Unix epoch. -/
structure Timespec where
  Sec : Int
  Nsec : Int
deriving DecidableEq, Repr

/-- `unixToInternal` of package `time`: the seconds from the zero time to the Unix epoch. -/
def unixToInternal : Int := (1969 * 365 + 1969 / 4 - 1969 / 100 + 1969 / 400) * 86400

/-- Go `time.Unix(sec, nsec)`. -/
def Time.Unix (sec nsec : Int) : Time := ⟨(sec + unixToInternal) * 1000000000 + nsec⟩

/-- `getTimeCoarse` of util.go: the time of the `Timespec` that the `CLOCK_REALTIME_COARSE`
call filled. -/
def getTimeCoarse (tspec : Timespec) : Time := Time.Unix tspec.Sec tspec.Nsec

/-- Run-time panics the package can raise. -/
inductive Panic where
  | divideByZero
  | nilDereference
deriving DecidableEq, Repr

deriving instance DecidableEq for Except

/-- One step of the Adler-32 running sums `(s1, s2)` of `hash/adler32`. -/
def adler32.update (d : Nat × Nat) (b : Byte) : Nat × Nat :=
  let s1 := (d.1 + b.val) % 65521
  let s2 := (d.2 + s1) % 65521
  (s1, s2)

/-- Go `adler32.Checksum`: `s2<<16 | s1` starting from `s1 = 1, s2 = 0`. -/
def adler32.Checksum (data : Key) : Nat :=
  let d := data.foldl adler32.update (1, 0)
  (d.2 * 65536 + d.1) % 2 ^ 32

/-- `qhash` of util.go: `adler32.Checksum(in) % num`; a zero `num` panics. -/
def qhash (inp : Key) (num : Nat) : Except Panic Nat :=
  if num = 0 then .error .divideByZero else .ok (adler32.Checksum inp % num)

/-- `item` of substore.go: a value with an expiration tied to it. -/
structure item (V : Type) where
  val : Option V
  expiry : Time
deriving DecidableEq, Repr

/-- Go `map[string]item`. -/
abbrev KVMap (V : Type) := AList (fun _ : Key => item V)

/-- Go `map[string]interface{}`, the result of a reap. -/
abbrev ResMap (V : Type) := AList (fun _ : Key => Option V)

/-- `substore` of substore.go: the shard number and its map. -/
structure substore (V : Type) where
  num : Nat
  kvmap : KVMap V

variable {V : Type}

/-- `substore.set`: the expiration is set only when `ttl > 0`; inserts or overwrites. -/
def substore.set (store : substore V) (key : Key) (value : Option V) (ttl : Duration)
    (now : Time) : substore V :=
  let i : item V := { val := value, expiry := Time.zero }
  let i : item V := if ttl > 0 then { i with expiry := now.Add ttl } else i
  { store with kvmap := store.kvmap.insert key i }

/-- `substore.setNX`: a present key is left alone and reported with `false`. -/
def substore.setNX (store : substore V) (key : Key) (value : Option V) (ttl : Duration)
    (now : Time) : substore V × Bool :=
  match store.kvmap.lookup key with
  | some _ => (store, false)
  | none =>
    let i : item V := { val := value, expiry := Time.zero }
    let i : item V := if ttl > 0 then { i with expiry := now.Add ttl } else i
    ({ store with kvmap := store.kvmap.insert key i }, true)

/-- `substore.get`: `(nil, false)` on a miss, `(i.val, true)` on a hit. -/
def substore.get (store : substore V) (key : Key) : Option V × Bool :=
  match store.kvmap.lookup key with
  | none => (none, false)
  | some i => (i.val, true)

/-- `substore.delete`. -/
def substore.delete (store : substore V) (key : Key) : substore V :=
  { store with kvmap := store.kvmap.erase key }

/-- Body of the loop of `substore.reap` for the entry `(k, v)`. -/
def substore.reapStep (results : Bool) (now : Time) (acc : KVMap V × ResMap V)
    (e : Sigma (fun _ : Key => item V)) : KVMap V × ResMap V :=
  if e.2.expiry.IsZero || e.2.expiry.After now then acc
  else (acc.1.erase e.1, if results then acc.2.insert e.1 e.2.val else acc.2)

/-- `substore.reap`: ranges over the map, deleting every entry whose expiry is neither zero
nor after `now`; the deleted pairs are recorded when `results` is set. -/
def substore.reap (store : substore V) (results : Bool) (now : Time) :
    substore V × ResMap V :=
  let r := store.kvmap.entries.foldl (substore.reapStep results now) (store.kvmap, ∅)
  ({ store with kvmap := r.1 }, r.2)

/-- `substore.keys`: the keys in iteration order. -/
def substore.keys (store : substore V) : List Key :=
  store.kvmap.entries.foldl (fun keys e => keys ++ [e.1]) []

/-- `substore.len`: `len(store.kvmap)`. -/
def substore.len (store : substore V) : Nat :=
  store.kvmap.entries.length

/-- `KVStore` of kvstore.go; `sema` is the capacity the semaphore was created with. -/
structure KVStore (V : Type) where
  sema : Nat
  stores : List (substore V)
  numStores : Nat

/-- `NewKVStore`, with the package variables `NumStores` and `NumReapers` as arguments:
one empty shard per index below `NumStores`. The body has no failing path. -/
def NewKVStore (NumStores NumReapers : Nat) : Except Panic (KVStore V) :=
  .ok { sema := NumReapers
        numStores := NumStores
        stores := (List.range NumStores).map (fun i => { num := i, kvmap := ∅ }) }

/-- `KVStore.getStore`: map lookup; `none` is the nil pointer of an absent index. -/
def KVStore.getStore (kvs : KVStore V) (num : Nat) : Option (substore V) :=
  kvs.stores[num]?

/-- Write-back of the shard at index `num` after a method mutated it through its pointer. -/
def KVStore.putStore (kvs : KVStore V) (num : Nat) (s : substore V) : KVStore V :=
  { kvs with stores := kvs.stores.set num s }

/-- `KVStore.Set`. -/
def KVStore.Set (kvs : KVStore V) (key : Key) (value : Option V) (ttl : Duration)
    (now : Time) : Except Panic (KVStore V) :=
  match qhash key kvs.numStores with
  | .error p => .error p
  | .ok storeNum =>
    match kvs.getStore storeNum with
    | none => .error .nilDereference
    | some s => .ok (kvs.putStore storeNum (s.set key value ttl now))

/-- `KVStore.SetNX`. -/
def KVStore.SetNX (kvs : KVStore V) (key : Key) (value : Option V) (ttl : Duration)
    (now : Time) : Except Panic (KVStore V × Bool) :=
  match qhash key kvs.numStores with
  | .error p => .error p
  | .ok storeNum =>
    match kvs.getStore storeNum with
    | none => .error .nilDereference
    | some s =>
      let r := s.setNX key value ttl now
      .ok (kvs.putStore storeNum r.1, r.2)

/-- `KVStore.Get`. -/
def KVStore.Get (kvs : KVStore V) (key : Key) : Except Panic (Option V × Bool) :=
  match qhash key kvs.numStores with
  | .error p => .error p
  | .ok storeNum =>
    match kvs.getStore storeNum with
    | none => .error .nilDereference
    | some s => .ok (s.get key)

/-- `KVStore.Delete`. -/
def KVStore.Delete (kvs : KVStore V) (key : Key) : Except Panic (KVStore V) :=
  match qhash key kvs.numStores with
  | .error p => .error p
  | .ok u =>
    match kvs.getStore u with
    | none => .error .nilDereference
    | some s => .ok (kvs.putStore u (s.delete key))

/-- The merge loop of `KVStore.Reap`: `totalDeleted[k] = v` for every pair of `deleted`. -/
def mergeDeleted (totalDeleted deleted : ResMap V) : ResMap V :=
  deleted.entries.foldl (fun t e => t.insert e.1 e.2) totalDeleted

/-- The loop of `KVStore.Reap` over the shards: each shard is swept, and its deleted pairs
are merged into `totalDeleted` when `results` is set. `substore.reap` calls `getTimeCoarse`
itself, so every sweep has its own reading: the shard numbered `i` is swept at `clock i`. -/
def reapStores (results : Bool) (clock : Nat → Time) :
    List (substore V) → Option (ResMap V) → List (substore V) × Option (ResMap V)
  | [], totalDeleted => ([], totalDeleted)
  | s :: rest, totalDeleted =>
    let r := s.reap results (clock s.num)
    let totalDeleted := if results then totalDeleted.map (fun t => mergeDeleted t r.2)
      else totalDeleted
    let rr := reapStores results clock rest totalDeleted
    (r.1 :: rr.1, rr.2)

/-- `KVStore.Reap`: `totalDeleted` is a fresh map when `results` is set and the nil map
(`none`) otherwise. `KVStore.Reap` reads no clock; `clock` gives the readings of the shard
sweeps it starts. -/
def KVStore.Reap (kvs : KVStore V) (results : Bool) (clock : Nat → Time) :
    KVStore V × Option (ResMap V) :=
  let totalDeleted : Option (ResMap V) := if results then some ∅ else none
  let r := reapStores results clock kvs.stores totalDeleted
  ({ kvs with stores := r.1 }, r.2)

/-- `KVStore.Keys`: the shards key slices appended shard after shard. -/
def KVStore.Keys (kvs : KVStore V) : List Key :=
  kvs.stores.foldl (fun ret store => ret ++ store.keys) []

/-- `KVStore.Len`: the sum of the shard lengths. -/
def KVStore.Len (kvs : KVStore V) : Nat :=
  kvs.stores.foldl (fun l store => l + store.len) 0

/-- The guard of the loop of `substore.reap`, negated: the entry is deleted. -/
def item.swept (now : Time) (it : item V) : Bool :=
  !(it.expiry.IsZero || it.expiry.After now)

/-- An expiration is set and is less than or equal to `now`. -/
def item.Expired (now : Time) (it : item V) : Prop :=
  it.expiry ≠ Time.zero ∧ it.expiry.ns ≤ now.ns

/-- The entry stored under `k` in the shard at index `i`, if any. -/
def KVStore.entryAt (kvs : KVStore V) (i : Nat) (k : Key) : Option (item V) :=
  (kvs.stores[i]?).bind (fun s => s.kvmap.lookup k)

/-- The entry the store holds for `k`: the one in the shard `k` routes to. -/
def KVStore.find (kvs : KVStore V) (k : Key) : Option (item V) :=
  match qhash k kvs.numStores with
  | .ok i => kvs.entryAt i k
  | .error _ => none

/-- Structural invariant of a store: one shard per index below `numStores`, each carrying
its own index, and every key stored in the shard it routes to. -/
def KVStore.WF (kvs : KVStore V) : Prop :=
  kvs.stores.length = kvs.numStores ∧
  ∀ i s, kvs.stores[i]? = some s →
    s.num = i ∧ ∀ k, k ∈ s.kvmap.keys → qhash k kvs.numStores = .ok i

/-- The mutating calls of the public interface. A `Reap` comes with the clock readings of
its shard sweeps. -/
inductive Op (V : Type) where
  | Set (key : Key) (value : Option V) (ttl : Duration)
  | SetNX (key : Key) (value : Option V) (ttl : Duration)
  | Delete (key : Key)
  | Reap (results : Bool) (clock : Nat → Time)

/-- The key a call writes, if it is a per-key call. -/
def Op.key : Op V → Option Key
  | .Set k _ _ => some k
  | .SetNX k _ _ => some k
  | .Delete k => some k
  | .Reap _ _ => none

/-- Effect of one call on the store. `now` is the clock reading a `Set` or `SetNX` takes;
`Delete` reads no clock, and the sweeps of a `Reap` take the readings the call comes with. -/
def KVStore.apply (kvs : KVStore V) (op : Op V) (now : Time) : Except Panic (KVStore V) :=
  match op with
  | .Set k v ttl => kvs.Set k v ttl now
  | .SetNX k v ttl =>
    match kvs.SetNX k v ttl now with
    | .error p => .error p
    | .ok r => .ok r.1
  | .Delete k => kvs.Delete k
  | .Reap results clock => .ok (kvs.Reap results clock).1

/-- Effect of a sequence of calls, each paired with the clock reading it is made at. -/
def KVStore.run (kvs : KVStore V) : List (Op V × Time) → Except Panic (KVStore V)
  | [] => .ok kvs
  | c :: rest =>
    match kvs.apply c.1 c.2 with
    | .error p => .error p
    | .ok kvs1 => kvs1.run rest

/-- States a store built by `NewKVStore` can be in after any calls at any clock readings. -/
inductive Reachable (NumStores NumReapers : Nat) : KVStore V → Prop where
  | init {kvs : KVStore V} : NewKVStore NumStores NumReapers = .ok kvs →
      Reachable NumStores NumReapers kvs
  | step {kvs kvs1 : KVStore V} (op : Op V) (now : Time) :
      Reachable NumStores NumReapers kvs → kvs.apply op now = .ok kvs1 →
      Reachable NumStores NumReapers kvs1

/-- The item `substore.set` and `substore.setNX` build for `value` and `ttl` at `now`. -/
def item.make (value : Option V) (ttl : Duration) (now : Time) : item V :=
  if ttl > 0 then { val := value, expiry := now.Add ttl }
  else { val := value, expiry := Time.zero }

/-- What `substore.get` answers for the result of a map lookup. -/
def item.answer : Option (item V) → Option V × Bool
  | none => (none, false)
  | some i => (i.val, true)

/-- The call is a `Reap`. -/
def Op.isReap : Op V → Bool
  | .Reap _ _ => true
  | _ => false

/-- The call is a `Delete`. -/
def Op.isDelete : Op V → Bool
  | .Delete _ => true
  | _ => false

/-- The call is a `Set` of the key `k`. -/
def Op.isSetOf (k : Key) : Op V → Bool
  | .Set k2 _ _ => decide (k2 = k)
  | _ => false

/-- Two shards that hold the same keys in the same order with the same values, and so
differ at most in the expirations of their entries. -/
def substore.sameValues (a b : substore V) : Prop :=
  a.num = b.num ∧ a.kvmap.keys = b.kvmap.keys ∧
    ∀ k, (a.kvmap.lookup k).map item.val = (b.kvmap.lookup k).map item.val

/-- Two stores whose shards agree index by index up to expirations. -/
def KVStore.sameValues (a b : KVStore V) : Prop :=
  a.numStores = b.numStores ∧ a.stores.length = b.stores.length ∧
    ∀ (i : Nat) (sa sb : substore V),
      a.stores[i]? = some sa → b.stores[i]? = some sb → sa.sameValues sb

/-! ## Sample inputs -/

/-- The key `"test"` of the tests. -/
def testKey : Key := [116, 101, 115, 116]

/-- The store of the tests: `NewKVStore()` under the defaults `NumStores = 64` and
`NumReapers = 4`. -/
def nkvs : KVStore Nat :=
  { sema := 4, numStores := 64
    stores := (List.range 64).map (fun i => { num := i, kvmap := ∅ }) }

/-- A store of two shards after `Set("a", 1, 5)` and `Set("b", 2, 0)` at clock reading 100:
`"a"` routes to shard 0 and expires at 105, `"b"` routes to shard 1 and never expires. -/
def ttlStore : KVStore Nat :=
  { sema := 4, numStores := 2
    stores := [{ num := 0, kvmap := (∅ : KVMap Nat).insert [97] ⟨some 1, ⟨105⟩⟩ },
               { num := 1, kvmap := (∅ : KVMap Nat).insert [98] ⟨some 2, ⟨0⟩⟩ }] }

/-- A store of two shards after `Set("a", 1, 5)` and `Set("b", 2, 5)` at clock reading 100:
`"a"` is in shard 0, `"b"` in shard 1, and both expire at 105. -/
def sameExpiryStore : KVStore Nat :=
  { sema := 4, numStores := 2
    stores := [{ num := 0, kvmap := (∅ : KVMap Nat).insert [97] ⟨some 1, ⟨105⟩⟩ },
               { num := 1, kvmap := (∅ : KVMap Nat).insert [98] ⟨some 2, ⟨105⟩⟩ }] }

/-- Readings of one `Reap` that moves on while the clock ticks: the sweep of shard 0 reads
104, every later sweep reads 105. -/
def splitClock : Nat → Time := fun i => if i = 0 then ⟨104⟩ else ⟨105⟩

/-! ## Association lists -/

theorem kerase_eq_filter {β : Type} (a : Key) :
    ∀ {l : List (Sigma (fun _ : Key => β))}, l.NodupKeys →
      l.kerase a = l.filter (fun e => !decide (e.1 = a))
  | [], _ => rfl
  | e :: t, nd => by
    rw [List.nodupKeys_cons] at nd
    by_cases h : a = e.1
    · subst h
      have ht : t.filter (fun e' => !decide (e'.1 = e.1)) = t := by
        rw [List.filter_eq_self]
        intro x hx
        have : x.1 ≠ e.1 := fun hxe => nd.1 (hxe ▸ List.mem_keys_of_mem hx)
        simpa using this
      rw [List.kerase_cons_eq rfl, List.filter_cons_of_neg (by simp), ht]
    · have h2 : e.1 ≠ a := fun h3 => h h3.symm
      rw [List.kerase_cons_ne h, kerase_eq_filter a nd.2,
        List.filter_cons_of_pos (by simpa using h2)]

/-! ## Routing -/

theorem qhash_pos (k : Key) {n : Nat} (h : 0 < n) :
    qhash k n = .ok (adler32.Checksum k % n) := by
  simp [qhash, Nat.ne_of_gt h]

theorem route_ok (kvs : KVStore V) (hlen : kvs.stores.length = kvs.numStores)
    (hpos : 0 < kvs.numStores) (k : Key) :
    ∃ i s, qhash k kvs.numStores = .ok i ∧ i < kvs.numStores ∧ kvs.stores[i]? = some s := by
  have hi : adler32.Checksum k % kvs.numStores < kvs.stores.length := by
    rw [hlen]; exact Nat.mod_lt _ hpos
  exact ⟨_, kvs.stores[adler32.Checksum k % kvs.numStores], qhash_pos k hpos,
    Nat.mod_lt _ hpos, List.getElem?_eq_getElem hi⟩

theorem entryAt_putStore (kvs : KVStore V) {i : Nat} (hi : i < kvs.stores.length)
    (s : substore V) (j : Nat) (k : Key) :
    (kvs.putStore i s).entryAt j k = if j = i then s.kvmap.lookup k else kvs.entryAt j k := by
  unfold KVStore.entryAt KVStore.putStore
  by_cases h : j = i
  · subst h; simp [List.getElem?_set_self hi]
  · have h2 : i ≠ j := fun e => h e.symm
    simp [h, List.getElem?_set_ne h2]

theorem find_putStore (kvs : KVStore V) {i : Nat} (hi : i < kvs.stores.length)
    (s : substore V) (k2 : Key) :
    (kvs.putStore i s).find k2 =
      if qhash k2 kvs.numStores = .ok i then s.kvmap.lookup k2 else kvs.find k2 := by
  unfold KVStore.find
  have hn : (kvs.putStore i s).numStores = kvs.numStores := rfl
  rw [hn]
  cases hq2 : qhash k2 kvs.numStores with
  | error p => simp
  | ok j =>
    simp only [entryAt_putStore kvs hi]
    by_cases hji : j = i
    · subst hji; simp
    · have : (Except.ok j : Except Panic Nat) ≠ .ok i := fun e => hji (by injection e)
      simp [hji, this]

/-! ## Per-key calls on a store with one shard per index -/

theorem set_kvmap (s : substore V) (k : Key) (v : Option V) (ttl : Duration) (now : Time) :
    (s.set k v ttl now).kvmap = s.kvmap.insert k (item.make v ttl now) := by
  unfold substore.set item.make
  by_cases h : ttl > 0 <;> simp [h]

theorem setNX_absent (s : substore V) (k : Key) (v : Option V) (ttl : Duration) (now : Time)
    (h : s.kvmap.lookup k = none) :
    s.setNX k v ttl now = ({ s with kvmap := s.kvmap.insert k (item.make v ttl now) }, true) := by
  unfold substore.setNX item.make
  rw [h]

theorem setNX_present (s : substore V) (k : Key) (v : Option V) (ttl : Duration) (now : Time)
    {it : item V} (h : s.kvmap.lookup k = some it) :
    s.setNX k v ttl now = (s, false) := by
  unfold substore.setNX
  rw [h]

theorem get_eq_answer (s : substore V) (k : Key) :
    s.get k = item.answer (s.kvmap.lookup k) := by
  unfold substore.get item.answer
  cases s.kvmap.lookup k <;> rfl

theorem find_eq_lookup (kvs : KVStore V) {i : Nat} {s : substore V} {k : Key}
    (hq : qhash k kvs.numStores = .ok i) (hs : kvs.stores[i]? = some s) :
    kvs.find k = s.kvmap.lookup k := by
  simp [KVStore.find, hq, KVStore.entryAt, hs]

theorem Get_eq (kvs : KVStore V) (hlen : kvs.stores.length = kvs.numStores)
    (hpos : 0 < kvs.numStores) (k : Key) :
    kvs.Get k = .ok (item.answer (kvs.find k)) := by
  obtain ⟨i, s, hq, _, hs⟩ := route_ok kvs hlen hpos k
  simp [KVStore.Get, hq, KVStore.getStore, hs, find_eq_lookup kvs hq hs, get_eq_answer]

theorem Set_eq (kvs : KVStore V) (hlen : kvs.stores.length = kvs.numStores)
    (hpos : 0 < kvs.numStores) (k : Key) (v : Option V) (ttl : Duration) (now : Time) :
    ∃ i s, qhash k kvs.numStores = .ok i ∧ kvs.stores[i]? = some s ∧
      kvs.Set k v ttl now = .ok (kvs.putStore i (s.set k v ttl now)) := by
  obtain ⟨i, s, hq, _, hs⟩ := route_ok kvs hlen hpos k
  exact ⟨i, s, hq, hs, by simp [KVStore.Set, hq, KVStore.getStore, hs]⟩

theorem SetNX_eq (kvs : KVStore V) (hlen : kvs.stores.length = kvs.numStores)
    (hpos : 0 < kvs.numStores) (k : Key) (v : Option V) (ttl : Duration) (now : Time) :
    ∃ i s, qhash k kvs.numStores = .ok i ∧ kvs.stores[i]? = some s ∧
      kvs.SetNX k v ttl now =
        .ok (kvs.putStore i (s.setNX k v ttl now).1, (s.setNX k v ttl now).2) := by
  obtain ⟨i, s, hq, _, hs⟩ := route_ok kvs hlen hpos k
  exact ⟨i, s, hq, hs, by simp [KVStore.SetNX, hq, KVStore.getStore, hs]⟩

theorem Delete_eq (kvs : KVStore V) (hlen : kvs.stores.length = kvs.numStores)
    (hpos : 0 < kvs.numStores) (k : Key) :
    ∃ i s, qhash k kvs.numStores = .ok i ∧ kvs.stores[i]? = some s ∧
      kvs.Delete k = .ok (kvs.putStore i (s.delete k)) := by
  obtain ⟨i, s, hq, _, hs⟩ := route_ok kvs hlen hpos k
  exact ⟨i, s, hq, hs, by simp [KVStore.Delete, hq, KVStore.getStore, hs]⟩

theorem lt_of_getElem?_some {α : Type} {l : List α} {i : Nat} {a : α}
    (h : l[i]? = some a) : i < l.length := by
  rcases List.getElem?_eq_some.1 h with ⟨h1, _⟩
  exact h1

theorem putStore_self (kvs : KVStore V) {i : Nat} {s : substore V}
    (hs : kvs.stores[i]? = some s) : kvs.putStore i s = kvs := by
  unfold KVStore.putStore
  have : kvs.stores.set i s = kvs.stores := by
    apply List.ext_getElem?
    intro j
    by_cases hj : i = j
    · subst hj; rw [List.getElem?_set_self (lt_of_getElem?_some hs), hs]
    · rw [List.getElem?_set_ne hj]
  rw [this]

theorem find_Set (kvs kvs1 : KVStore V) (hlen : kvs.stores.length = kvs.numStores)
    (hpos : 0 < kvs.numStores) (k : Key) (v : Option V) (ttl : Duration) (now : Time)
    (h : kvs.Set k v ttl now = .ok kvs1) (k2 : Key) :
    kvs1.find k2 = if k2 = k then some (item.make v ttl now) else kvs.find k2 := by
  obtain ⟨i, s, hq, hs, he⟩ := Set_eq kvs hlen hpos k v ttl now
  rw [he] at h
  injection h with h
  subst h
  rw [find_putStore kvs (lt_of_getElem?_some hs), set_kvmap]
  by_cases hk : k2 = k
  · subst hk; simp [hq, AList.lookup_insert]
  · by_cases hq2 : qhash k2 kvs.numStores = .ok i
    · simp [hq2, hk, AList.lookup_insert_ne hk, find_eq_lookup kvs hq2 hs]
    · simp [hq2, hk]

theorem find_Delete (kvs kvs1 : KVStore V) (hlen : kvs.stores.length = kvs.numStores)
    (hpos : 0 < kvs.numStores) (k : Key) (h : kvs.Delete k = .ok kvs1) (k2 : Key) :
    kvs1.find k2 = if k2 = k then none else kvs.find k2 := by
  obtain ⟨i, s, hq, hs, he⟩ := Delete_eq kvs hlen hpos k
  rw [he] at h
  injection h with h
  subst h
  rw [find_putStore kvs (lt_of_getElem?_some hs)]
  by_cases hk : k2 = k
  · subst hk; simp [hq, substore.delete, AList.lookup_erase]
  · by_cases hq2 : qhash k2 kvs.numStores = .ok i
    · simp [hq2, hk, substore.delete, AList.lookup_erase_ne hk, find_eq_lookup kvs hq2 hs]
    · simp [hq2, hk]

/-! ## The sweep of one shard -/

theorem swept_iff_Expired (now : Time) (it : item V) :
    it.swept now = true ↔ it.Expired now := by
  unfold item.swept item.Expired Time.IsZero Time.After Time.zero
  cases hx : it.expiry with
  | mk n =>
    simp only [Bool.not_eq_true', Bool.or_eq_false_iff, beq_eq_false_iff_ne, ne_eq,
      decide_eq_false_iff_not, not_lt, Time.mk.injEq]

theorem reapStep_swept (results : Bool) (now : Time) (acc : KVMap V × ResMap V)
    (e : Sigma (fun _ : Key => item V)) (h : e.2.swept now = true) :
    substore.reapStep results now acc e =
      (acc.1.erase e.1, if results then acc.2.insert e.1 e.2.val else acc.2) := by
  unfold item.swept at h
  unfold substore.reapStep
  simp only [Bool.not_eq_true'] at h
  simp [h]

theorem reapStep_kept (results : Bool) (now : Time) (acc : KVMap V × ResMap V)
    (e : Sigma (fun _ : Key => item V)) (h : e.2.swept now = false) :
    substore.reapStep results now acc e = acc := by
  unfold item.swept at h
  unfold substore.reapStep
  simp only [Bool.not_eq_false'] at h
  simp [h]

theorem reap_fold_fst (results : Bool) (now : Time) :
    ∀ (l : List (Sigma (fun _ : Key => item V))) (acc : KVMap V × ResMap V),
      (l.foldl (substore.reapStep results now) acc).1.entries =
        acc.1.entries.filter
          (fun x => !(l.any (fun e => decide (e.1 = x.1) && e.2.swept now)))
  | [], acc => by simp
  | e :: t, acc => by
    rw [List.foldl_cons, reap_fold_fst results now t]
    cases hsw : e.2.swept now with
    | true =>
      rw [reapStep_swept results now acc e hsw]
      have he : (acc.1.erase e.1).entries = acc.1.entries.kerase e.1 := rfl
      simp only [he, kerase_eq_filter e.1 acc.1.nodupKeys, List.filter_filter]
      apply List.filter_congr
      intro x _
      by_cases hx : e.1 = x.1
      · simp [hx, hsw]
      · have hx2 : ¬ x.1 = e.1 := fun h => hx h.symm
        simp [hx, hx2, hsw]
    | false =>
      rw [reapStep_kept results now acc e hsw]
      apply List.filter_congr
      intro x _
      simp [hsw]

theorem reap_entries (s : substore V) (results : Bool) (now : Time) :
    (s.reap results now).1.kvmap.entries =
      s.kvmap.entries.filter (fun e => !e.2.swept now) := by
  unfold substore.reap
  simp only [reap_fold_fst]
  apply List.filter_congr
  intro x hx
  congr 1
  cases hsw : x.2.swept now with
  | true =>
    rw [List.any_eq_true]
    exact ⟨x, hx, by simp [hsw]⟩
  | false =>
    rw [List.any_eq_false]
    intro e he
    by_cases hk : e.1 = x.1
    · have : e = x := s.kvmap.nodupKeys.eq_of_fst_eq he hx hk
      subst this
      simp [hsw]
    · simp [hk]

theorem dlookup_filter {β : Type} (p : β → Bool) (k : Key) :
    ∀ {l : List (Sigma (fun _ : Key => β))}, l.NodupKeys →
      (l.filter (fun e => p e.2)).dlookup k = (l.dlookup k).filter p
  | [], _ => rfl
  | e :: t, nd => by
    rw [List.nodupKeys_cons] at nd
    obtain ⟨a, b⟩ := e
    by_cases hk : k = a
    · subst hk
      have hnone : t.dlookup k = none := List.dlookup_eq_none.2 nd.1
      cases hp : p b with
      | true =>
        rw [List.filter_cons_of_pos (by simpa using hp)]
        simp [List.dlookup_cons_eq, Option.filter, hp]
      | false =>
        rw [List.filter_cons_of_neg (by simp [hp]), dlookup_filter p k nd.2, hnone]
        simp [List.dlookup_cons_eq, Option.filter, hp]
    · cases hp : p b with
      | true =>
        rw [List.filter_cons_of_pos (by simpa using hp),
          List.dlookup_cons_ne _ _ hk, List.dlookup_cons_ne _ _ hk, dlookup_filter p k nd.2]
      | false =>
        rw [List.filter_cons_of_neg (by simp [hp]),
          List.dlookup_cons_ne _ _ hk, dlookup_filter p k nd.2]

theorem reap_lookup (s : substore V) (results : Bool) (now : Time) (k : Key) :
    (s.reap results now).1.kvmap.lookup k =
      (s.kvmap.lookup k).filter (fun it => !it.swept now) := by
  unfold AList.lookup
  rw [reap_entries, dlookup_filter (fun it => !it.swept now) k s.kvmap.nodupKeys]

theorem reap_fold_snd_false (now : Time) :
    ∀ (l : List (Sigma (fun _ : Key => item V))) (acc : KVMap V × ResMap V),
      (l.foldl (substore.reapStep false now) acc).2 = acc.2
  | [], _ => rfl
  | e :: t, acc => by
    rw [List.foldl_cons, reap_fold_snd_false now t]
    cases hsw : e.2.swept now with
    | true => rw [reapStep_swept false now acc e hsw]; rfl
    | false => rw [reapStep_kept false now acc e hsw]

theorem reap_fold_snd_true (now : Time) (k : Key) :
    ∀ (l : List (Sigma (fun _ : Key => item V))), l.NodupKeys →
      ∀ (acc : KVMap V × ResMap V),
      (l.foldl (substore.reapStep true now) acc).2.lookup k =
        match (l.dlookup k).filter (fun it => it.swept now) with
        | some it => some it.val
        | none => acc.2.lookup k
  | [], _, _ => rfl
  | e :: t, nd, acc => by
    rw [List.nodupKeys_cons] at nd
    obtain ⟨a, b⟩ := e
    rw [List.foldl_cons, reap_fold_snd_true now k t nd.2]
    by_cases hk : k = a
    · subst hk
      have hnone : t.dlookup k = none := List.dlookup_eq_none.2 nd.1
      rw [hnone, List.dlookup_cons_eq]
      cases hsw : b.swept now with
      | true =>
        rw [reapStep_swept true now acc ⟨k, b⟩ hsw]
        simp [Option.filter, hsw, AList.lookup_insert]
      | false =>
        rw [reapStep_kept true now acc ⟨k, b⟩ hsw]
        simp [Option.filter, hsw]
    · rw [List.dlookup_cons_ne _ _ hk]
      cases hsw : b.swept now with
      | true =>
        rw [reapStep_swept true now acc ⟨a, b⟩ hsw]
        simp [AList.lookup_insert_ne hk]
      | false =>
        rw [reapStep_kept true now acc ⟨a, b⟩ hsw]

theorem reap_result_lookup (s : substore V) (now : Time) (k : Key) (v : Option V) :
    (s.reap true now).2.lookup k = some v ↔
      ∃ it, s.kvmap.lookup k = some it ∧ it.swept now = true ∧ it.val = v := by
  unfold substore.reap
  simp only [reap_fold_snd_true now k _ s.kvmap.nodupKeys]
  unfold AList.lookup
  cases hl : s.kvmap.entries.dlookup k with
  | none => simp [Option.filter]
  | some it =>
    cases hsw : it.swept now with
    | true => simp [Option.filter, hsw]
    | false => simp [Option.filter, hsw]

theorem reap_result_false (s : substore V) (now : Time) :
    (s.reap false now).2 = ∅ := by
  unfold substore.reap
  simp only [reap_fold_snd_false]

/-! ## The sweep of all shards -/

theorem foldl_insert_lookup {β : Type} (k : Key) :
    ∀ (l : List (Sigma (fun _ : Key => β))), l.NodupKeys →
      ∀ (t : AList (fun _ : Key => β)),
      (l.foldl (fun t e => t.insert e.1 e.2) t).lookup k = (l.dlookup k).or (t.lookup k)
  | [], _, _ => rfl
  | e :: r, nd, t => by
    rw [List.nodupKeys_cons] at nd
    obtain ⟨a, b⟩ := e
    rw [List.foldl_cons, foldl_insert_lookup k r nd.2]
    by_cases hk : k = a
    · subst hk
      rw [List.dlookup_eq_none.2 nd.1, List.dlookup_cons_eq]
      simp [AList.lookup_insert]
    · rw [List.dlookup_cons_ne _ _ hk]
      simp [AList.lookup_insert_ne hk]

theorem mergeDeleted_lookup (t d : ResMap V) (k : Key) :
    (mergeDeleted t d).lookup k = (d.lookup k).or (t.lookup k) :=
  foldl_insert_lookup k d.entries d.nodupKeys t

theorem reapStores_fst (results : Bool) (clock : Nat → Time) :
    ∀ (l : List (substore V)) (t : Option (ResMap V)),
      (reapStores results clock l t).1 = l.map (fun s => (s.reap results (clock s.num)).1)
  | [], _ => rfl
  | s :: r, t => by
    simp only [reapStores, List.map_cons, reapStores_fst results clock r]

theorem reapStores_snd_true (clock : Nat → Time) :
    ∀ (l : List (substore V)) (t : ResMap V),
      (reapStores true clock l (some t)).2 =
        some (l.foldl (fun t s => mergeDeleted t (s.reap true (clock s.num)).2) t)
  | [], _ => rfl
  | s :: r, t => by
    simp only [reapStores, List.foldl_cons, if_true, Option.map_some']
    exact reapStores_snd_true clock r _

theorem reapStores_snd_false (clock : Nat → Time) :
    ∀ (l : List (substore V)), (reapStores false clock l none).2 = none
  | [] => rfl
  | s :: r => by
    simp only [reapStores, Bool.false_eq_true, if_false]
    exact reapStores_snd_false clock r

theorem merged_lookup_sound (f : substore V → ResMap V) (k : Key) (v : Option V) :
    ∀ (l : List (substore V)) (t : ResMap V),
      (l.foldl (fun t s => mergeDeleted t (f s)) t).lookup k = some v →
        (∃ s ∈ l, (f s).lookup k = some v) ∨ t.lookup k = some v
  | [], _, h => Or.inr h
  | d :: r, t, h => by
    rw [List.foldl_cons] at h
    rcases merged_lookup_sound f k v r _ h with ⟨s, hs, hv⟩ | h2
    · exact Or.inl ⟨s, List.mem_cons_of_mem _ hs, hv⟩
    · rw [mergeDeleted_lookup] at h2
      cases hd : (f d).lookup k with
      | none => rw [hd, Option.none_or] at h2; exact Or.inr h2
      | some v2 =>
        rw [hd, Option.or_some] at h2
        exact Or.inl ⟨d, List.mem_cons_self _ _, by rw [hd]; exact h2⟩

theorem merged_lookup_complete (f : substore V → ResMap V) (k : Key) (v : Option V) :
    ∀ (l : List (substore V)) (t : ResMap V),
      (∀ s ∈ l, ∀ v2, (f s).lookup k = some v2 → v2 = v) →
      ((∃ s ∈ l, (f s).lookup k = some v) ∨ t.lookup k = some v) →
      (l.foldl (fun t s => mergeDeleted t (f s)) t).lookup k = some v
  | [], _, _, h => by
    rcases h with ⟨s, hs, _⟩ | h
    · cases hs
    · exact h
  | d :: r, t, hc, h => by
    rw [List.foldl_cons]
    apply merged_lookup_complete f k v r _
      (fun s hs => hc s (List.mem_cons_of_mem _ hs))
    rw [mergeDeleted_lookup]
    rcases h with ⟨s, hs, hv⟩ | h
    · rcases List.mem_cons.1 hs with rfl | hs
      · right; rw [hv, Option.or_some]
      · exact Or.inl ⟨s, hs, hv⟩
    · right
      cases hd : (f d).lookup k with
      | none => rw [Option.none_or]; exact h
      | some v2 => rw [hc d (List.mem_cons_self _ _) v2 hd, Option.or_some]

theorem entryAt_Reap (kvs : KVStore V) (results : Bool) (clock : Nat → Time) (i : Nat)
    (k : Key) :
    (kvs.Reap results clock).1.entryAt i k =
      (kvs.stores[i]?).bind
        (fun s => (s.kvmap.lookup k).filter (fun it => !it.swept (clock s.num))) := by
  unfold KVStore.Reap KVStore.entryAt
  simp only [reapStores_fst, List.getElem?_map]
  cases kvs.stores[i]? with
  | none => rfl
  | some s => simp [reap_lookup]

theorem Reap_result_true (kvs : KVStore V) (clock : Nat → Time) :
    (kvs.Reap true clock).2 =
      some (kvs.stores.foldl (fun t s => mergeDeleted t (s.reap true (clock s.num)).2) ∅) := by
  unfold KVStore.Reap
  simp only [if_true, reapStores_snd_true]

/-! ## The structural invariant -/

theorem wf_entryAt_route {kvs : KVStore V} (hwf : kvs.WF) {i : Nat} {k : Key} {it : item V}
    (h : kvs.entryAt i k = some it) : qhash k kvs.numStores = .ok i := by
  unfold KVStore.entryAt at h
  cases hs : kvs.stores[i]? with
  | none => rw [hs] at h; cases h
  | some s =>
    rw [hs] at h
    have hk : k ∈ s.kvmap.keys := by
      rw [← AList.mem_keys, ← AList.lookup_isSome]
      simp only [Option.some_bind] at h
      rw [h]; rfl
    exact (hwf.2 i s hs).2 k hk

theorem NewKVStore_wf {ns nr : Nat} {kvs : KVStore V} (h : NewKVStore ns nr = .ok kvs) :
    kvs.WF ∧ kvs.numStores = ns := by
  unfold NewKVStore at h
  injection h with h
  subst h
  refine ⟨⟨by simp, ?_⟩, rfl⟩
  intro i s hs
  simp only [List.getElem?_map] at hs
  cases hr : (List.range ns)[i]? with
  | none => rw [hr] at hs; cases hs
  | some j =>
    rw [hr] at hs
    have hj : j = i := by
      rcases List.getElem?_eq_some.1 hr with ⟨h1, h2⟩
      rw [← h2]; simp
    simp only [Option.map_some', Option.some.injEq] at hs
    subst hs
    exact ⟨hj, fun k hk => by simp at hk⟩

theorem wf_putStore {kvs : KVStore V} (hwf : kvs.WF) {i : Nat} {s : substore V}
    (hs : kvs.stores[i]? = some s) (s1 : substore V) (hnum : s1.num = s.num)
    (hkeys : ∀ k, k ∈ s1.kvmap.keys → k ∈ s.kvmap.keys ∨ qhash k kvs.numStores = .ok i) :
    (kvs.putStore i s1).WF := by
  have hi := lt_of_getElem?_some hs
  refine ⟨by simp [KVStore.putStore, hwf.1], ?_⟩
  intro j s2 hs2
  show s2.num = j ∧ ∀ k, k ∈ s2.kvmap.keys → qhash k kvs.numStores = .ok j
  unfold KVStore.putStore at hs2
  by_cases hji : i = j
  · subst hji
    simp only [List.getElem?_set_self hi, Option.some.injEq] at hs2
    subst hs2
    refine ⟨by rw [hnum]; exact (hwf.2 i s hs).1, ?_⟩
    intro k hk
    rcases hkeys k hk with h | h
    · exact (hwf.2 i s hs).2 k h
    · exact h
  · simp only [List.getElem?_set_ne hji] at hs2
    exact hwf.2 j s2 hs2

theorem keys_reap_subset (s : substore V) (results : Bool) (now : Time) (k : Key)
    (hk : k ∈ (s.reap results now).1.kvmap.keys) : k ∈ s.kvmap.keys := by
  unfold AList.keys at hk ⊢
  rw [reap_entries] at hk
  rcases List.mem_keys.1 hk with ⟨b, hb⟩
  exact List.mem_keys.2 ⟨b, List.mem_of_mem_filter hb⟩

theorem wf_Reap {kvs : KVStore V} (hwf : kvs.WF) (results : Bool) (clock : Nat → Time) :
    (kvs.Reap results clock).1.WF := by
  unfold KVStore.Reap
  simp only [reapStores_fst]
  refine ⟨by simp [hwf.1], ?_⟩
  intro i s1 hs1
  simp only [List.getElem?_map] at hs1
  cases hs : kvs.stores[i]? with
  | none => rw [hs] at hs1; cases hs1
  | some s =>
    rw [hs] at hs1
    simp only [Option.map_some', Option.some.injEq] at hs1
    subst hs1
    exact ⟨(hwf.2 i s hs).1, fun k hk =>
      (hwf.2 i s hs).2 k (keys_reap_subset s results (clock s.num) k hk)⟩

theorem Set_inv {kvs kvs1 : KVStore V} {k : Key} {v : Option V} {ttl : Duration} {now : Time}
    (h : kvs.Set k v ttl now = .ok kvs1) :
    ∃ i s, qhash k kvs.numStores = .ok i ∧ kvs.stores[i]? = some s ∧
      kvs1 = kvs.putStore i (s.set k v ttl now) := by
  unfold KVStore.Set KVStore.getStore at h
  cases hq : qhash k kvs.numStores with
  | error p => rw [hq] at h; cases h
  | ok i =>
    rw [hq] at h
    cases hs : kvs.stores[i]? with
    | none => simp only [hs] at h; cases h
    | some s =>
      simp only [hs] at h
      injection h with h
      exact ⟨i, s, rfl, hs, h.symm⟩

theorem SetNX_inv {kvs : KVStore V} {r : KVStore V × Bool} {k : Key} {v : Option V}
    {ttl : Duration} {now : Time} (h : kvs.SetNX k v ttl now = .ok r) :
    ∃ i s, qhash k kvs.numStores = .ok i ∧ kvs.stores[i]? = some s ∧
      r = (kvs.putStore i (s.setNX k v ttl now).1, (s.setNX k v ttl now).2) := by
  unfold KVStore.SetNX KVStore.getStore at h
  cases hq : qhash k kvs.numStores with
  | error p => rw [hq] at h; cases h
  | ok i =>
    rw [hq] at h
    cases hs : kvs.stores[i]? with
    | none => simp only [hs] at h; cases h
    | some s =>
      simp only [hs] at h
      injection h with h
      exact ⟨i, s, rfl, hs, h.symm⟩

theorem Delete_inv {kvs kvs1 : KVStore V} {k : Key} (h : kvs.Delete k = .ok kvs1) :
    ∃ i s, qhash k kvs.numStores = .ok i ∧ kvs.stores[i]? = some s ∧
      kvs1 = kvs.putStore i (s.delete k) := by
  unfold KVStore.Delete KVStore.getStore at h
  cases hq : qhash k kvs.numStores with
  | error p => rw [hq] at h; cases h
  | ok i =>
    rw [hq] at h
    cases hs : kvs.stores[i]? with
    | none => simp only [hs] at h; cases h
    | some s =>
      simp only [hs] at h
      injection h with h
      exact ⟨i, s, rfl, hs, h.symm⟩

theorem wf_Set {kvs kvs1 : KVStore V} (hwf : kvs.WF) {k : Key} {v : Option V}
    {ttl : Duration} {now : Time} (h : kvs.Set k v ttl now = .ok kvs1) : kvs1.WF := by
  obtain ⟨i, s, hq, hs, rfl⟩ := Set_inv h
  refine wf_putStore hwf hs _ rfl ?_
  intro k2 hk2
  rw [set_kvmap, ← AList.mem_keys, AList.mem_insert] at hk2
  rcases hk2 with rfl | h2
  · exact Or.inr hq
  · exact Or.inl (AList.mem_keys.1 h2)

theorem wf_SetNX {kvs : KVStore V} {r : KVStore V × Bool} (hwf : kvs.WF) {k : Key}
    {v : Option V} {ttl : Duration} {now : Time} (h : kvs.SetNX k v ttl now = .ok r) :
    r.1.WF := by
  obtain ⟨i, s, hq, hs, rfl⟩ := SetNX_inv h
  cases hl : s.kvmap.lookup k with
  | some it =>
    rw [setNX_present s k v ttl now hl]
    show (kvs.putStore i s).WF
    rw [putStore_self kvs hs]
    exact hwf
  | none =>
    rw [setNX_absent s k v ttl now hl]
    refine wf_putStore hwf hs _ rfl ?_
    intro k2 hk2
    rw [← AList.mem_keys] at hk2
    rcases (AList.mem_insert _).1 hk2 with rfl | h2
    · exact Or.inr hq
    · exact Or.inl (AList.mem_keys.1 h2)

theorem wf_Delete {kvs kvs1 : KVStore V} (hwf : kvs.WF) {k : Key}
    (h : kvs.Delete k = .ok kvs1) : kvs1.WF := by
  obtain ⟨i, s, _, hs, rfl⟩ := Delete_inv h
  refine wf_putStore hwf hs _ rfl ?_
  intro k2 hk2
  rw [← AList.mem_keys] at hk2
  exact Or.inl (AList.mem_keys.1 (AList.mem_erase.1 hk2).2)

theorem numStores_putStore (kvs : KVStore V) (i : Nat) (s : substore V) :
    (kvs.putStore i s).numStores = kvs.numStores := rfl

theorem apply_wf {kvs kvs1 : KVStore V} (hwf : kvs.WF) {op : Op V} {now : Time}
    (h : kvs.apply op now = .ok kvs1) : kvs1.WF ∧ kvs1.numStores = kvs.numStores := by
  cases op with
  | Set k v ttl =>
    refine ⟨wf_Set hwf h, ?_⟩
    obtain ⟨i, s, _, _, rfl⟩ := Set_inv h
    rfl
  | SetNX k v ttl =>
    unfold KVStore.apply at h
    cases hx : kvs.SetNX k v ttl now with
    | error p => simp only [hx] at h; cases h
    | ok r =>
      simp only [hx] at h
      injection h with h
      subst h
      refine ⟨wf_SetNX hwf hx, ?_⟩
      obtain ⟨i, s, _, _, rfl⟩ := SetNX_inv hx
      rfl
  | Delete k =>
    refine ⟨wf_Delete hwf h, ?_⟩
    obtain ⟨i, s, _, _, rfl⟩ := Delete_inv h
    rfl
  | Reap results clock =>
    unfold KVStore.apply at h
    injection h with h
    subst h
    exact ⟨wf_Reap hwf results clock, rfl⟩

theorem Reachable.wf {ns nr : Nat} {kvs : KVStore V} (h : Reachable ns nr kvs) :
    kvs.WF ∧ kvs.numStores = ns := by
  induction h with
  | init h0 => exact NewKVStore_wf h0
  | step op now _ hstep ih =>
    obtain ⟨h1, h2⟩ := apply_wf ih.1 hstep
    exact ⟨h1, h2.trans ih.2⟩

theorem ttlStore_reachable : Reachable 2 4 ttlStore :=
  .step (.Set [98] (some 2) 0) ⟨100⟩
    (.step (.Set [97] (some 1) 5) ⟨100⟩ (.init rfl) rfl) rfl

theorem make_val (v : Option V) (ttl : Duration) (now : Time) :
    (item.make v ttl now).val = v := by
  unfold item.make
  by_cases h : ttl > 0 <;> simp [h]

theorem shape_Set {kvs kvs1 : KVStore V} {k : Key} {v : Option V} {ttl : Duration}
    {now : Time} (h : kvs.Set k v ttl now = .ok kvs1) :
    kvs1.stores.length = kvs.stores.length ∧ kvs1.numStores = kvs.numStores := by
  obtain ⟨i, s, _, _, rfl⟩ := Set_inv h
  exact ⟨by simp [KVStore.putStore], rfl⟩

theorem find_SetNX {kvs : KVStore V} (hlen : kvs.stores.length = kvs.numStores)
    (hpos : 0 < kvs.numStores) (k : Key) (v : Option V) (ttl : Duration) (now : Time) :
    ∃ kvs1, kvs.SetNX k v ttl now = .ok (kvs1, (kvs.find k).isNone) ∧
      kvs1.stores.length = kvs.stores.length ∧ kvs1.numStores = kvs.numStores ∧
      ((kvs.find k).isSome → kvs1 = kvs) ∧
      ∀ k2, kvs1.find k2 =
        if k2 = k ∧ (kvs.find k).isNone then some (item.make v ttl now)
        else kvs.find k2 := by
  obtain ⟨i, s, hq, hs, he⟩ := SetNX_eq kvs hlen hpos k v ttl now
  have hf := find_eq_lookup kvs hq hs
  cases hl : s.kvmap.lookup k with
  | some it =>
    rw [setNX_present s k v ttl now hl, putStore_self kvs hs] at he
    refine ⟨kvs, ?_, rfl, rfl, fun _ => rfl, ?_⟩
    · rw [he, hf, hl]; rfl
    · intro k2
      simp [hf, hl]
  | none =>
    rw [setNX_absent s k v ttl now hl] at he
    refine ⟨kvs.putStore i { s with kvmap := s.kvmap.insert k (item.make v ttl now) },
      ?_, by simp [KVStore.putStore], rfl, ?_, ?_⟩
    · rw [he, hf, hl]; rfl
    · intro h; rw [hf, hl] at h; cases h
    · intro k2
      rw [find_putStore kvs (lt_of_getElem?_some hs)]
      by_cases hk : k2 = k
      · subst hk; simp [hq, hf, hl, AList.lookup_insert]
      · by_cases hq2 : qhash k2 kvs.numStores = .ok i
        · simp [hq2, hk, AList.lookup_insert_ne hk, find_eq_lookup kvs hq2 hs]
        · simp [hq2, hk]

theorem entryAt_Reap_wf {kvs : KVStore V} (hwf : kvs.WF) (results : Bool)
    (clock : Nat → Time) (i : Nat) (k : Key) :
    (kvs.Reap results clock).1.entryAt i k =
      (kvs.entryAt i k).filter (fun it => !it.swept (clock i)) := by
  rw [entryAt_Reap]
  unfold KVStore.entryAt
  cases hs : kvs.stores[i]? with
  | none => rfl
  | some s => simp [(hwf.2 i s hs).1]

theorem find_Reap (kvs : KVStore V) (results : Bool) (clock : Nat → Time) (k : Key) :
    ∃ j, (kvs.Reap results clock).1.find k =
      (kvs.find k).filter (fun it => !it.swept (clock j)) := by
  unfold KVStore.find
  have hn : (kvs.Reap results clock).1.numStores = kvs.numStores := rfl
  rw [hn]
  cases qhash k kvs.numStores with
  | error p => exact ⟨0, rfl⟩
  | ok i =>
    simp only [entryAt_Reap]
    unfold KVStore.entryAt
    cases kvs.stores[i]? with
    | none => exact ⟨0, rfl⟩
    | some s => exact ⟨s.num, rfl⟩

theorem shape_Reap (kvs : KVStore V) (results : Bool) (clock : Nat → Time) :
    (kvs.Reap results clock).1.stores.length = kvs.stores.length ∧
      (kvs.Reap results clock).1.numStores = kvs.numStores := by
  simp [KVStore.Reap, reapStores_fst]

theorem shape_Delete {kvs kvs1 : KVStore V} {k : Key} (h : kvs.Delete k = .ok kvs1) :
    kvs1.stores.length = kvs.stores.length ∧ kvs1.numStores = kvs.numStores := by
  obtain ⟨i, s, _, _, rfl⟩ := Delete_inv h
  exact ⟨by simp [KVStore.putStore], rfl⟩

theorem apply_total (kvs : KVStore V) (hlen : kvs.stores.length = kvs.numStores)
    (hpos : 0 < kvs.numStores) (op : Op V) (now : Time) :
    ∃ kvs1, kvs.apply op now = .ok kvs1 ∧ kvs1.stores.length = kvs1.numStores ∧
      kvs1.numStores = kvs.numStores := by
  cases op with
  | Set k v ttl =>
    obtain ⟨i, s, _, _, he⟩ := Set_eq kvs hlen hpos k v ttl now
    obtain ⟨h1, h2⟩ := shape_Set he
    exact ⟨_, he, by rw [h1, h2]; exact hlen, h2⟩
  | SetNX k v ttl =>
    obtain ⟨kvs1, he, h1, h2, _⟩ := find_SetNX hlen hpos k v ttl now
    refine ⟨kvs1, ?_, by rw [h1, h2]; exact hlen, h2⟩
    simp [KVStore.apply, he]
  | Delete k =>
    obtain ⟨i, s, _, _, he⟩ := Delete_eq kvs hlen hpos k
    obtain ⟨h1, h2⟩ := shape_Delete he
    exact ⟨_, he, by rw [h1, h2]; exact hlen, h2⟩
  | Reap results clock =>
    obtain ⟨h1, h2⟩ := shape_Reap kvs results clock
    exact ⟨_, rfl, by rw [h1, h2]; exact hlen, h2⟩

theorem find_apply {kvs kvs1 : KVStore V} (hlen : kvs.stores.length = kvs.numStores)
    (hpos : 0 < kvs.numStores) {op : Op V} {now : Time} (h : kvs.apply op now = .ok kvs1)
    (k : Key) :
    match op with
    | .Set k2 v ttl =>
      kvs1.find k = if k = k2 then some (item.make v ttl now) else kvs.find k
    | .SetNX k2 v ttl =>
      kvs1.find k =
        if k = k2 ∧ (kvs.find k2).isNone then some (item.make v ttl now) else kvs.find k
    | .Delete k2 => kvs1.find k = if k = k2 then none else kvs.find k
    | .Reap _ clock =>
      ∃ j, kvs1.find k = (kvs.find k).filter (fun it => !it.swept (clock j)) := by
  cases op with
  | Set k2 v ttl => exact find_Set kvs kvs1 hlen hpos k2 v ttl now h k
  | SetNX k2 v ttl =>
    obtain ⟨kvs2, he, _, _, _, hf⟩ := find_SetNX hlen hpos k2 v ttl now
    simp only [KVStore.apply, he] at h
    injection h with h
    subst h
    exact hf k
  | Delete k2 => exact find_Delete kvs kvs1 hlen hpos k2 h k
  | Reap results clock =>
    simp only [KVStore.apply] at h
    injection h with h
    subst h
    exact find_Reap kvs results clock k

theorem run_keeps_unexpiring (k : Key) (it : item V) (hz : it.expiry = Time.zero) :
    ∀ (calls : List (Op V × Time)) (kvs : KVStore V),
      kvs.stores.length = kvs.numStores → 0 < kvs.numStores →
      (∀ c ∈ calls, c.1.key ≠ some k) → kvs.find k = some it →
      ∃ kvs2, kvs.run calls = .ok kvs2 ∧ kvs2.find k = some it ∧
        kvs2.stores.length = kvs2.numStores ∧ kvs2.numStores = kvs.numStores
  | [], kvs, hlen, _, _, hf => ⟨kvs, rfl, hf, hlen, rfl⟩
  | c :: rest, kvs, hlen, hpos, hc, hf => by
    obtain ⟨kvs1, he, hlen1, hn1⟩ := apply_total kvs hlen hpos c.1 c.2
    have hck : c.1.key ≠ some k := hc c (List.mem_cons_self _ _)
    have hf1 : kvs1.find k = some it := by
      rcases c with ⟨op, now⟩
      have hfa := find_apply hlen hpos he k
      cases op with
      | Set k2 v ttl =>
        have : k ≠ k2 := fun e => hck (by rw [e]; rfl)
        simp only at hfa
        rw [hfa]
        simp [this, hf]
      | SetNX k2 v ttl =>
        have : k ≠ k2 := fun e => hck (by rw [e]; rfl)
        simp only at hfa
        rw [hfa]
        simp [this, hf]
      | Delete k2 =>
        have : k ≠ k2 := fun e => hck (by rw [e]; rfl)
        simp only at hfa
        rw [hfa]
        simp [this, hf]
      | Reap results clock =>
        obtain ⟨j, hj⟩ := hfa
        rw [hj]
        simp [hf, Option.filter, item.swept, hz, Time.IsZero, Time.zero]
    obtain ⟨kvs2, hr, hf2, hlen2, hn2⟩ :=
      run_keeps_unexpiring k it hz rest kvs1 hlen1 (by rw [hn1]; exact hpos)
        (fun c2 h2 => hc c2 (List.mem_cons_of_mem _ h2)) hf1
    refine ⟨kvs2, ?_, hf2, hlen2, hn2.trans hn1⟩
    simp only [KVStore.run, he]
    exact hr

theorem nkvs_reachable : Reachable 64 4 nkvs := .init rfl

theorem erase_absent {β : Type} (m : AList (fun _ : Key => β)) (k : Key)
    (h : m.lookup k = none) : m.erase k = m := by
  apply AList.ext
  show m.entries.kerase k = m.entries
  exact List.kerase_of_not_mem_keys (List.dlookup_eq_none.1 h)

theorem answer_found (o : Option (item V)) (val : Option V) :
    item.answer o = (val, false) ↔ o = none ∧ val = none := by
  cases o with
  | none => simp [item.answer, eq_comm]
  | some it => simp [item.answer]

/-! ## Keys and Len -/

theorem substore_keys_eq (s : substore V) : s.keys = s.kvmap.keys := by
  unfold substore.keys AList.keys List.keys
  have : ∀ (l : List (Sigma (fun _ : Key => item V))) (acc : List Key),
      l.foldl (fun keys e => keys ++ [e.1]) acc = acc ++ l.map Sigma.fst := by
    intro l
    induction l with
    | nil => intro acc; simp
    | cons e t ih => intro acc; simp [ih]
  simpa using this s.kvmap.entries []

theorem Keys_eq (kvs : KVStore V) :
    kvs.Keys = (kvs.stores.map (fun s => s.kvmap.keys)).flatten := by
  unfold KVStore.Keys
  have : ∀ (l : List (substore V)) (acc : List Key),
      l.foldl (fun ret store => ret ++ store.keys) acc =
        acc ++ (l.map (fun s => s.kvmap.keys)).flatten := by
    intro l
    induction l with
    | nil => intro acc; simp
    | cons e t ih =>
      intro acc
      rw [List.foldl_cons, ih]
      simp [substore_keys_eq]
  simpa using this kvs.stores []

theorem Len_eq (kvs : KVStore V) : kvs.Len = kvs.Keys.length := by
  rw [Keys_eq]
  unfold KVStore.Len
  have : ∀ (l : List (substore V)) (acc : Nat),
      l.foldl (fun n store => n + store.len) acc =
        acc + ((l.map (fun s => s.kvmap.keys)).flatten).length := by
    intro l
    induction l with
    | nil => intro acc; simp
    | cons e t ih =>
      intro acc
      rw [List.foldl_cons, ih]
      simp [substore.len, AList.keys, List.keys, Nat.add_assoc]
  simpa using this kvs.stores 0

theorem mem_Keys (kvs : KVStore V) (k : Key) :
    k ∈ kvs.Keys ↔ ∃ i it, kvs.entryAt i k = some it := by
  rw [Keys_eq]
  simp only [List.mem_flatten, List.mem_map]
  constructor
  · rintro ⟨l, ⟨s, hs, rfl⟩, hk⟩
    obtain ⟨i, hi⟩ := List.getElem?_of_mem hs
    have : (s.kvmap.lookup k).isSome := AList.lookup_isSome.2 (AList.mem_keys.2 hk)
    obtain ⟨it, hit⟩ := Option.isSome_iff_exists.1 this
    exact ⟨i, it, by simp [KVStore.entryAt, hi, hit]⟩
  · rintro ⟨i, it, h⟩
    unfold KVStore.entryAt at h
    cases hs : kvs.stores[i]? with
    | none => rw [hs] at h; cases h
    | some s =>
      rw [hs] at h
      simp only [Option.some_bind] at h
      refine ⟨_, ⟨s, List.getElem?_mem hs, rfl⟩, ?_⟩
      exact AList.mem_keys.1 (AList.lookup_isSome.1 (by rw [h]; rfl))

theorem mem_Keys_iff_find {kvs : KVStore V} (hwf : kvs.WF) (k : Key) :
    k ∈ kvs.Keys ↔ ∃ it, kvs.find k = some it := by
  rw [mem_Keys]
  constructor
  · rintro ⟨i, it, h⟩
    exact ⟨it, by simp [KVStore.find, wf_entryAt_route hwf h, h]⟩
  · rintro ⟨it, h⟩
    unfold KVStore.find at h
    cases hq : qhash k kvs.numStores with
    | error p => rw [hq] at h; cases h
    | ok i => rw [hq] at h; exact ⟨i, it, h⟩

theorem Keys_nodup {kvs : KVStore V} (hwf : kvs.WF) : kvs.Keys.Nodup := by
  rw [Keys_eq, List.nodup_flatten]
  constructor
  · intro l hl
    obtain ⟨s, _, rfl⟩ := List.mem_map.1 hl
    exact s.kvmap.keys_nodup
  · rw [List.pairwise_map, List.pairwise_iff_getElem]
    intro i j hi hj hij
    intro k hki hkj
    have h1 := (hwf.2 i _ (List.getElem?_eq_getElem hi)).2 k hki
    have h2 := (hwf.2 j _ (List.getElem?_eq_getElem hj)).2 k hkj
    rw [h1] at h2
    injection h2 with h2
    omega

/-! ## Stores that differ in expirations only -/

theorem answer_congr {oa ob : Option (item V)} (h : oa.map item.val = ob.map item.val) :
    item.answer oa = item.answer ob := by
  cases oa with
  | none =>
    cases ob with
    | none => rfl
    | some y => simp at h
  | some x =>
    cases ob with
    | none => simp at h
    | some y =>
      simp only [Option.map_some', Option.some.injEq] at h
      simp [item.answer, h]

theorem sameValues_refl (kvs : KVStore V) : kvs.sameValues kvs := by
  refine ⟨rfl, rfl, ?_⟩
  intro i sa sb ha hb
  rw [ha] at hb
  injection hb with hb
  subst hb
  exact ⟨rfl, rfl, fun _ => rfl⟩

theorem sameValues_getElem? {a b : KVStore V} (h : a.sameValues b) (i : Nat) :
    (a.stores[i]? = none ∧ b.stores[i]? = none) ∨
      ∃ sa sb, a.stores[i]? = some sa ∧ b.stores[i]? = some sb ∧ sa.sameValues sb := by
  by_cases hi : i < a.stores.length
  · have hj : i < b.stores.length := by rw [← h.2.1]; exact hi
    exact Or.inr ⟨_, _, List.getElem?_eq_getElem hi, List.getElem?_eq_getElem hj,
      h.2.2 i _ _ (List.getElem?_eq_getElem hi) (List.getElem?_eq_getElem hj)⟩
  · have hj : ¬ i < b.stores.length := by rw [← h.2.1]; exact hi
    exact Or.inl ⟨List.getElem?_eq_none (not_lt.1 hi), List.getElem?_eq_none (not_lt.1 hj)⟩

theorem sameValues_Get {a b : KVStore V} (h : a.sameValues b) (k : Key) :
    a.Get k = b.Get k := by
  unfold KVStore.Get KVStore.getStore
  rw [← h.1]
  cases qhash k a.numStores with
  | error p => rfl
  | ok i =>
    rcases sameValues_getElem? h i with ⟨ha, hb⟩ | ⟨sa, sb, ha, hb, hs⟩
    · simp only [ha, hb]
    · simp only [ha, hb, get_eq_answer, answer_congr (hs.2.2 k)]

theorem sameValues_keys {a b : KVStore V} (h : a.sameValues b) :
    a.stores.map (fun s => s.kvmap.keys) = b.stores.map (fun s => s.kvmap.keys) := by
  apply List.ext_getElem?
  intro i
  simp only [List.getElem?_map]
  rcases sameValues_getElem? h i with ⟨ha, hb⟩ | ⟨sa, sb, ha, hb, hs⟩
  · rw [ha, hb]
  · rw [ha, hb]
    simp [hs.2.1]

theorem sameValues_Keys {a b : KVStore V} (h : a.sameValues b) : a.Keys = b.Keys := by
  rw [Keys_eq, Keys_eq, sameValues_keys h]

theorem sameValues_Len {a b : KVStore V} (h : a.sameValues b) : a.Len = b.Len := by
  rw [Len_eq, Len_eq, sameValues_Keys h]

theorem sameValues_putStore {a b : KVStore V} (h : a.sameValues b) (i : Nat)
    {sa sb : substore V} (hs : sa.sameValues sb) :
    (a.putStore i sa).sameValues (b.putStore i sb) := by
  refine ⟨h.1, by simp [KVStore.putStore, h.2.1], ?_⟩
  intro j ta tb hta htb
  unfold KVStore.putStore at hta htb
  simp only at hta htb
  by_cases hij : i = j
  · subst hij
    have hi : i < a.stores.length := by
      by_contra hc
      rw [List.set_eq_of_length_le (not_lt.1 hc)] at hta
      exact hc (lt_of_getElem?_some hta)
    have hj : i < b.stores.length := by rw [← h.2.1]; exact hi
    rw [List.getElem?_set_self hi] at hta
    rw [List.getElem?_set_self hj] at htb
    injection hta with hta
    injection htb with htb
    subst hta; subst htb
    exact hs
  · rw [List.getElem?_set_ne hij] at hta htb
    exact h.2.2 j ta tb hta htb

theorem sameValues_set {sa sb : substore V} (h : sa.sameValues sb) (k : Key)
    (v : Option V) (ttl : Duration) (n1 n2 : Time) :
    (sa.set k v ttl n1).sameValues (sb.set k v ttl n2) := by
  refine ⟨h.1, ?_, ?_⟩
  · rw [set_kvmap, set_kvmap, AList.keys_insert, AList.keys_insert, h.2.1]
  · intro k2
    rw [set_kvmap, set_kvmap]
    by_cases hk : k2 = k
    · subst hk
      simp [AList.lookup_insert, make_val]
    · rw [AList.lookup_insert_ne hk, AList.lookup_insert_ne hk]
      exact h.2.2 k2

theorem sameValues_delete {sa sb : substore V} (h : sa.sameValues sb) (k : Key) :
    (sa.delete k).sameValues (sb.delete k) := by
  refine ⟨h.1, ?_, ?_⟩
  · show (sa.kvmap.erase k).keys = (sb.kvmap.erase k).keys
    rw [AList.keys_erase, AList.keys_erase, h.2.1]
  · intro k2
    show ((sa.kvmap.erase k).lookup k2).map item.val = ((sb.kvmap.erase k).lookup k2).map item.val
    by_cases hk : k2 = k
    · subst hk
      rw [AList.lookup_erase, AList.lookup_erase]
    · rw [AList.lookup_erase_ne hk, AList.lookup_erase_ne hk]
      exact h.2.2 k2

theorem sameValues_setNX {sa sb : substore V} (h : sa.sameValues sb) (k : Key)
    (v : Option V) (ttl : Duration) (n1 n2 : Time) :
    (sa.setNX k v ttl n1).1.sameValues (sb.setNX k v ttl n2).1 ∧
      (sa.setNX k v ttl n1).2 = (sb.setNX k v ttl n2).2 := by
  have hk := h.2.2 k
  cases ha : sa.kvmap.lookup k with
  | none =>
    cases hb : sb.kvmap.lookup k with
    | none =>
      rw [setNX_absent sa k v ttl n1 ha, setNX_absent sb k v ttl n2 hb]
      refine ⟨?_, rfl⟩
      have := sameValues_set h k v ttl n1 n2
      unfold substore.sameValues at this ⊢
      rw [set_kvmap, set_kvmap] at this
      exact this
    | some y => rw [ha, hb] at hk; simp at hk
  | some x =>
    cases hb : sb.kvmap.lookup k with
    | none => rw [ha, hb] at hk; simp at hk
    | some y =>
      rw [setNX_present sa k v ttl n1 ha, setNX_present sb k v ttl n2 hb]
      exact ⟨h, rfl⟩

theorem sameValues_apply {a b a1 b1 : KVStore V} (h : a.sameValues b) {op : Op V}
    (hop : op.isReap = false) {n1 n2 : Time} (ha : a.apply op n1 = .ok a1)
    (hb : b.apply op n2 = .ok b1) : a1.sameValues b1 := by
  cases op with
  | Set k v ttl =>
    obtain ⟨i, sa, hqa, hsa, rfl⟩ := Set_inv ha
    obtain ⟨j, sb, hqb, hsb, rfl⟩ := Set_inv hb
    rw [← h.1, hqa] at hqb
    injection hqb with hij
    subst hij
    exact sameValues_putStore h i (sameValues_set (h.2.2 i sa sb hsa hsb) k v ttl n1 n2)
  | SetNX k v ttl =>
    unfold KVStore.apply at ha hb
    cases hxa : a.SetNX k v ttl n1 with
    | error p => simp only [hxa] at ha; cases ha
    | ok ra =>
      cases hxb : b.SetNX k v ttl n2 with
      | error p => simp only [hxb] at hb; cases hb
      | ok rb =>
        simp only [hxa] at ha
        simp only [hxb] at hb
        injection ha with ha
        injection hb with hb
        subst ha; subst hb
        obtain ⟨i, sa, hqa, hsa, rfl⟩ := SetNX_inv hxa
        obtain ⟨j, sb, hqb, hsb, rfl⟩ := SetNX_inv hxb
        rw [← h.1, hqa] at hqb
        injection hqb with hij
        subst hij
        exact sameValues_putStore h i
          (sameValues_setNX (h.2.2 i sa sb hsa hsb) k v ttl n1 n2).1
  | Delete k =>
    obtain ⟨i, sa, hqa, hsa, rfl⟩ := Delete_inv ha
    obtain ⟨j, sb, hqb, hsb, rfl⟩ := Delete_inv hb
    rw [← h.1, hqa] at hqb
    injection hqb with hij
    subst hij
    exact sameValues_putStore h i (sameValues_delete (h.2.2 i sa sb hsa hsb) k)
  | Reap results clock => cases hop

theorem run_sameValues :
    ∀ (callsA callsB : List (Op V × Time)) (a b : KVStore V), a.sameValues b →
      a.stores.length = a.numStores → b.stores.length = b.numStores → 0 < a.numStores →
      callsA.map Prod.fst = callsB.map Prod.fst → (∀ c ∈ callsA, c.1.isReap = false) →
      ∃ a2 b2, a.run callsA = .ok a2 ∧ b.run callsB = .ok b2 ∧ a2.sameValues b2
  | [], [], a, b, h, _, _, _, _, _ => ⟨a, b, rfl, rfl, h⟩
  | [], _ :: _, _, _, _, _, _, _, hm, _ => by simp at hm
  | _ :: _, [], _, _, _, _, _, _, hm, _ => by simp at hm
  | ca :: ra, cb :: rb, a, b, h, hla, hlb, hpos, hm, hnr => by
    simp only [List.map_cons, List.cons.injEq] at hm
    obtain ⟨a1, hea, hla1, hna1⟩ := apply_total a hla hpos ca.1 ca.2
    obtain ⟨b1, heb, hlb1, _⟩ := apply_total b hlb (by rw [← h.1]; exact hpos) cb.1 cb.2
    have hop : ca.1.isReap = false := hnr ca (List.mem_cons_self _ _)
    have heb2 : b.apply ca.1 cb.2 = .ok b1 := by rw [hm.1]; exact heb
    have h1 := sameValues_apply h hop hea heb2
    obtain ⟨a2, b2, hra, hrb, h2⟩ :=
      run_sameValues ra rb a1 b1 h1 hla1 hlb1 (by rw [hna1]; exact hpos) hm.2
        (fun c hc => hnr c (List.mem_cons_of_mem _ hc))
    refine ⟨a2, b2, ?_, ?_, h2⟩
    · simp only [KVStore.run, hea]; exact hra
    · simp only [KVStore.run, heb]; exact hrb

theorem count_Keys {kvs : KVStore V} (hwf : kvs.WF) {k : Key} (h : k ∈ kvs.Keys) :
    kvs.Keys.count k = 1 := by
  have h1 := List.count_eq_one_of_mem (Keys_nodup hwf) h
  convert h1 using 2
  exact lawful_beq_subsingleton _ _

theorem run_keeps_value (k : Key) (v : Option V) :
    ∀ (calls : List (Op V × Time)) (kvs : KVStore V), kvs.WF → 0 < kvs.numStores →
      (∀ c ∈ calls, c.1.isReap = false ∧ c.1.isDelete = false ∧ c.1.isSetOf k = false) →
      (∃ it, kvs.find k = some it ∧ it.val = v) →
      ∃ kvs2, kvs.run calls = .ok kvs2 ∧ (∃ it, kvs2.find k = some it ∧ it.val = v) ∧
        kvs2.WF ∧ kvs2.numStores = kvs.numStores
  | [], kvs, hwf, _, _, hf => ⟨kvs, rfl, hf, hwf, rfl⟩
  | c :: rest, kvs, hwf, hpos, hc, hf => by
    obtain ⟨kvs1, he, _, hn1⟩ := apply_total kvs hwf.1 hpos c.1 c.2
    obtain ⟨hwf1, _⟩ := apply_wf hwf he
    obtain ⟨hnr, hnd, hns⟩ := hc c (List.mem_cons_self _ _)
    obtain ⟨it, hit, hval⟩ := hf
    have hf1 : ∃ it1, kvs1.find k = some it1 ∧ it1.val = v := by
      rcases c with ⟨op, now⟩
      have hfa := find_apply hwf.1 hpos he k
      cases op with
      | Set k2 v2 ttl =>
        have : k ≠ k2 := fun e => by simp [Op.isSetOf, e] at hns
        simp only at hfa
        exact ⟨it, by rw [hfa]; simp [this, hit], hval⟩
      | SetNX k2 v2 ttl =>
        simp only at hfa
        by_cases hk : k = k2
        · subst hk
          exact ⟨it, by rw [hfa]; simp [hit], hval⟩
        · exact ⟨it, by rw [hfa]; simp [hk, hit], hval⟩
      | Delete k2 => simp [Op.isDelete] at hnd
      | Reap results clock => simp [Op.isReap] at hnr
    obtain ⟨kvs2, hr, hf2, hwf2, hn2⟩ :=
      run_keeps_value k v rest kvs1 hwf1 (by rw [hn1]; exact hpos)
        (fun c2 h2 => hc c2 (List.mem_cons_of_mem _ h2)) hf1
    refine ⟨kvs2, ?_, hf2, hwf2, hn2.trans hn1⟩
    simp only [KVStore.run, he]
    exact hr

/-! ## Reaping twice, with and without results -/

theorem substore_ext {a b : substore V} (hn : a.num = b.num)
    (he : a.kvmap.entries = b.kvmap.entries) : a = b := by
  cases a with
  | mk na ma =>
    cases b with
    | mk nb mb =>
      simp only at hn he
      subst hn
      rw [AList.ext he]

theorem reap_fst_results (s : substore V) (r1 r2 : Bool) (now : Time) :
    (s.reap r1 now).1 = (s.reap r2 now).1 :=
  substore_ext rfl (by rw [reap_entries, reap_entries])

theorem Reap_fst_results (kvs : KVStore V) (r1 r2 : Bool) (clock : Nat → Time) :
    (kvs.Reap r1 clock).1 = (kvs.Reap r2 clock).1 := by
  unfold KVStore.Reap
  simp only [reapStores_fst]
  congr 1
  apply List.map_congr_left
  intro s _
  exact reap_fst_results s r1 r2 (clock s.num)

theorem Reap_snd_false (kvs : KVStore V) (clock : Nat → Time) :
    (kvs.Reap false clock).2 = none := by
  unfold KVStore.Reap
  simp only [Bool.false_eq_true, if_false]
  exact reapStores_snd_false clock kvs.stores

theorem reap_fold_unswept (results : Bool) (now : Time) :
    ∀ (l : List (Sigma (fun _ : Key => item V))) (acc : KVMap V × ResMap V),
      (∀ e ∈ l, e.2.swept now = false) → l.foldl (substore.reapStep results now) acc = acc
  | [], _, _ => rfl
  | e :: t, acc, h => by
    rw [List.foldl_cons, reapStep_kept results now acc e (h e (List.mem_cons_self _ _))]
    exact reap_fold_unswept results now t acc (fun e2 h2 => h e2 (List.mem_cons_of_mem _ h2))

theorem reap_unswept (s : substore V) (results : Bool) (now : Time)
    (h : ∀ e ∈ s.kvmap.entries, e.2.swept now = false) : s.reap results now = (s, ∅) := by
  unfold substore.reap
  simp only [reap_fold_unswept results now s.kvmap.entries _ h]

theorem reap_reap (s : substore V) (r1 r2 : Bool) (now : Time) :
    (s.reap r1 now).1.reap r2 now = ((s.reap r1 now).1, ∅) := by
  apply reap_unswept
  intro e he
  rw [reap_entries] at he
  have := (List.mem_filter.1 he).2
  simpa using this

theorem reapStores_unswept (clock : Nat → Time) :
    ∀ (l : List (substore V)) (t : ResMap V),
      (∀ s ∈ l, s.reap true (clock s.num) = (s, ∅)) →
      reapStores true clock l (some t) = (l, some t)
  | [], _, _ => rfl
  | s :: r, t, h => by
    have hs := h s (List.mem_cons_self _ _)
    have hr := reapStores_unswept clock r t (fun s2 h2 => h s2 (List.mem_cons_of_mem _ h2))
    have hm : mergeDeleted t (∅ : ResMap V) = t := rfl
    simp only [reapStores, hs, if_true, Option.map_some', hm, hr]

/-! ## Fresh stores, shard numbers -/

theorem entryAt_fresh {ns nr : Nat} {kvs : KVStore V} (h : NewKVStore ns nr = .ok kvs)
    (i : Nat) (k : Key) : kvs.entryAt i k = none := by
  unfold NewKVStore at h
  injection h with h
  subst h
  unfold KVStore.entryAt
  simp only [List.getElem?_map]
  cases (List.range ns)[i]? with
  | none => rfl
  | some j => rfl

theorem find_fresh {ns nr : Nat} {kvs : KVStore V} (h : NewKVStore ns nr = .ok kvs)
    (k : Key) : kvs.find k = none := by
  unfold KVStore.find
  cases qhash k kvs.numStores with
  | error p => rfl
  | ok i => exact entryAt_fresh h i k

theorem Get_inv {kvs : KVStore V} {k : Key} {r : Option V × Bool} (h : kvs.Get k = .ok r) :
    ∃ i s, qhash k kvs.numStores = .ok i ∧ kvs.stores[i]? = some s ∧ r = s.get k := by
  unfold KVStore.Get KVStore.getStore at h
  cases hq : qhash k kvs.numStores with
  | error p => rw [hq] at h; cases h
  | ok i =>
    rw [hq] at h
    cases hs : kvs.stores[i]? with
    | none => simp only [hs] at h; cases h
    | some s =>
      simp only [hs] at h
      injection h with h
      exact ⟨i, s, rfl, hs, h.symm⟩

theorem wf_nums {kvs : KVStore V} (hwf : kvs.WF) :
    kvs.stores.map (fun s => s.num) = List.range kvs.numStores := by
  apply List.ext_getElem?
  intro i
  rw [List.getElem?_map]
  by_cases hi : i < kvs.stores.length
  · have hs := List.getElem?_eq_getElem hi
    rw [hs, List.getElem?_range (by rw [← hwf.1]; exact hi)]
    simp [(hwf.2 i _ hs).1]
  · rw [List.getElem?_eq_none (not_lt.1 hi),
      List.getElem?_eq_none (by rw [List.length_range, ← hwf.1]; exact not_lt.1 hi)]
    rfl

theorem wf_disjoint {kvs : KVStore V} (hwf : kvs.WF) {i j : Nat} {k : Key} {it : item V}
    (h : kvs.entryAt i k = some it) (hij : i ≠ j) : kvs.entryAt j k = none := by
  cases hj : kvs.entryAt j k with
  | none => rfl
  | some it2 =>
    have h1 := wf_entryAt_route hwf h
    have h2 := wf_entryAt_route hwf hj
    rw [h1] at h2
    injection h2 with h2
    exact absurd h2 hij

/-! ## Overwriting -/

theorem set_set (s : substore V) (k : Key) (v1 v2 : Option V) (ttl1 ttl2 : Duration)
    (n1 n2 : Time) : (s.set k v1 ttl1 n1).set k v2 ttl2 n2 = s.set k v2 ttl2 n2 := by
  exact substore_ext rfl (by rw [set_kvmap, set_kvmap, set_kvmap, AList.insert_insert])

theorem putStore_putStore (kvs : KVStore V) (i : Nat) (a b : substore V) :
    (kvs.putStore i a).putStore i b = kvs.putStore i b := by
  unfold KVStore.putStore
  simp only [List.set_set]

theorem keys_set (s : substore V) (k : Key) (v1 v2 : Option V) (ttl1 ttl2 : Duration)
    (n1 n2 : Time) : (s.set k v1 ttl1 n1).kvmap.keys = (s.set k v2 ttl2 n2).kvmap.keys := by
  rw [set_kvmap, set_kvmap, AList.keys_insert, AList.keys_insert]

theorem Keys_putStore_congr (kvs : KVStore V) (i : Nat) {s1 s2 : substore V}
    (h : s1.kvmap.keys = s2.kvmap.keys) :
    (kvs.putStore i s1).Keys = (kvs.putStore i s2).Keys := by
  rw [Keys_eq, Keys_eq]
  congr 1
  apply List.ext_getElem?
  intro j
  unfold KVStore.putStore
  simp only [List.getElem?_map, List.getElem?_set]
  by_cases hij : i = j
  · simp only [hij, if_true]
    by_cases hj : j < kvs.stores.length
    · simp [hj, h]
    · simp [hj]
  · simp only [hij, if_false]

/-! ## Entries with a set expiration -/

theorem unixToInternal_eq : unixToInternal = 62135596800 := by decide

theorem getTimeCoarse_nonneg (tspec : Timespec) (hs : 0 ≤ tspec.Sec) (hn : 0 ≤ tspec.Nsec) :
    0 ≤ (getTimeCoarse tspec).ns := by
  unfold getTimeCoarse Time.Unix
  rw [unixToInternal_eq]
  show 0 ≤ (tspec.Sec + 62135596800) * 1000000000 + tspec.Nsec
  have : 0 ≤ (tspec.Sec + 62135596800) * 1000000000 :=
    Int.mul_nonneg (by omega) (by decide)
  omega

theorem Reap_result_entryAt {kvs : KVStore V} (hwf : kvs.WF) (clock : Nat → Time)
    (k : Key) (v : Option V) :
    ∃ m, (kvs.Reap true clock).2 = some m ∧
      (m.lookup k = some v ↔
        ∃ i it, kvs.entryAt i k = some it ∧ it.swept (clock i) = true ∧ it.val = v) := by
  refine ⟨_, Reap_result_true kvs clock, ?_⟩
  constructor
  · intro h
    rcases merged_lookup_sound (fun s => (s.reap true (clock s.num)).2) k v _ _ h with
      ⟨s, hs, hv⟩ | h2
    · obtain ⟨it, hl, hsw, hval⟩ := (reap_result_lookup s (clock s.num) k v).1 hv
      obtain ⟨i, hi, hget⟩ := List.getElem_of_mem hs
      have hsi : kvs.stores[i]? = some s := by
        rw [List.getElem?_eq_getElem hi, hget]
      have he : kvs.entryAt i k = some it := by
        unfold KVStore.entryAt
        rw [hsi]
        exact hl
      rw [(hwf.2 i s hsi).1] at hsw
      exact ⟨i, it, he, hsw, hval⟩
    · simp at h2
  · rintro ⟨i, it, he, hsw, hval⟩
    have hq := wf_entryAt_route hwf he
    have key : ∀ s ∈ kvs.stores, ∀ it2, s.kvmap.lookup k = some it2 → it2 = it := by
      intro s hs it2 hl
      obtain ⟨j, hj, hget⟩ := List.getElem_of_mem hs
      have hej : kvs.entryAt j k = some it2 := by
        unfold KVStore.entryAt
        rw [List.getElem?_eq_getElem hj, hget]
        exact hl
      have hqj := wf_entryAt_route hwf hej
      rw [hq] at hqj
      injection hqj with hij
      subst hij
      rw [he] at hej
      injection hej with h3
      exact h3.symm
    apply merged_lookup_complete (fun s => (s.reap true (clock s.num)).2) k v
    · intro s hs v2 hv2
      obtain ⟨it2, hl, _, hval2⟩ := (reap_result_lookup s (clock s.num) k v2).1 hv2
      rw [← hval2, key s hs it2 hl, hval]
    · left
      unfold KVStore.entryAt at he
      cases hs : kvs.stores[i]? with
      | none => rw [hs] at he; cases he
      | some s =>
        rw [hs] at he
        refine ⟨s, List.getElem?_mem hs, ?_⟩
        refine (reap_result_lookup s (clock s.num) k v).2 ⟨it, he, ?_, hval⟩
        rw [(hwf.2 i s hs).1]
        exact hsw

theorem find_entryAt {kvs : KVStore V} {k : Key} {it : item V} (h : kvs.find k = some it) :
    ∃ i, kvs.entryAt i k = some it := by
  unfold KVStore.find at h
  cases hq : qhash k kvs.numStores with
  | error p => rw [hq] at h; cases h
  | ok i => rw [hq] at h; exact ⟨i, h⟩

theorem run_keeps_or_reaps (k : Key) (it : item V) :
    ∀ (calls : List (Op V × Time)) (kvs : KVStore V),
      kvs.stores.length = kvs.numStores → 0 < kvs.numStores →
      (∀ c ∈ calls, c.1.key ≠ some k) → (kvs.find k = none ∨ kvs.find k = some it) →
      ∃ kvs2, kvs.run calls = .ok kvs2 ∧ (kvs2.find k = none ∨ kvs2.find k = some it) ∧
        kvs2.stores.length = kvs2.numStores ∧ kvs2.numStores = kvs.numStores
  | [], kvs, hlen, _, _, hf => ⟨kvs, rfl, hf, hlen, rfl⟩
  | c :: rest, kvs, hlen, hpos, hc, hf => by
    obtain ⟨kvs1, he, hlen1, hn1⟩ := apply_total kvs hlen hpos c.1 c.2
    have hck : c.1.key ≠ some k := hc c (List.mem_cons_self _ _)
    have hf1 : kvs1.find k = none ∨ kvs1.find k = some it := by
      rcases c with ⟨op, now⟩
      have hfa := find_apply hlen hpos he k
      cases op with
      | Set k2 v ttl =>
        have : k ≠ k2 := fun e => hck (by rw [e]; rfl)
        simp only at hfa
        rw [hfa]
        simpa [this] using hf
      | SetNX k2 v ttl =>
        have : k ≠ k2 := fun e => hck (by rw [e]; rfl)
        simp only at hfa
        rw [hfa]
        simpa [this] using hf
      | Delete k2 =>
        have : k ≠ k2 := fun e => hck (by rw [e]; rfl)
        simp only at hfa
        rw [hfa]
        simpa [this] using hf
      | Reap results clock =>
        obtain ⟨j, hj⟩ := hfa
        rw [hj]
        rcases hf with h | h
        · left; rw [h]; rfl
        · rw [h]
          cases hsw : it.swept (clock j) with
          | true => left; simp [Option.filter, hsw]
          | false => right; simp [Option.filter, hsw]
    obtain ⟨kvs2, hr, hf2, hlen2, hn2⟩ :=
      run_keeps_or_reaps k it rest kvs1 hlen1 (by rw [hn1]; exact hpos)
        (fun c2 h2 => hc c2 (List.mem_cons_of_mem _ h2)) hf1
    refine ⟨kvs2, ?_, hf2, hlen2, hn2.trans hn1⟩
    simp only [KVStore.run, he]
    exact hr

/-! ## Counting the removed entries -/

theorem insert_length_of_not_mem {β : Type} (t : AList (fun _ : Key => β)) (k : Key) (v : β)
    (h : k ∉ t) : (t.insert k v).entries.length = t.entries.length + 1 := by
  rw [AList.insert_entries_of_neg h]
  rfl

theorem foldl_insert_length {β : Type} :
    ∀ (l : List (Sigma (fun _ : Key => β))), l.NodupKeys →
      ∀ (t : AList (fun _ : Key => β)), (∀ e ∈ l, e.1 ∉ t) →
      (l.foldl (fun t e => t.insert e.1 e.2) t).entries.length = t.entries.length + l.length
  | [], _, _, _ => rfl
  | e :: r, nd, t, h => by
    rw [List.nodupKeys_cons] at nd
    rw [List.foldl_cons, foldl_insert_length r nd.2,
      insert_length_of_not_mem t e.1 e.2 (h e (List.mem_cons_self _ _)), List.length_cons]
    · omega
    · intro e2 he2 hmem
      rcases (AList.mem_insert t).1 hmem with heq | hin
      · exact nd.1 (heq ▸ List.mem_keys_of_mem he2)
      · exact h e2 (List.mem_cons_of_mem _ he2) hin

theorem mergeDeleted_length (t d : ResMap V) (h : ∀ k, k ∈ d → k ∉ t) :
    (mergeDeleted t d).entries.length = t.entries.length + d.entries.length := by
  unfold mergeDeleted
  apply foldl_insert_length d.entries d.nodupKeys t
  intro e he
  exact h e.1 (AList.mem_keys.2 (List.mem_keys_of_mem he))

theorem mem_mergeDeleted (t d : ResMap V) (k : Key) :
    k ∈ mergeDeleted t d → k ∈ d ∨ k ∈ t := by
  intro h
  rw [← AList.lookup_isSome, mergeDeleted_lookup] at h
  cases hd : d.lookup k with
  | some v => exact Or.inl (AList.lookup_isSome.1 (by rw [hd]; rfl))
  | none =>
    rw [hd, Option.none_or] at h
    exact Or.inr (AList.lookup_isSome.1 h)

theorem reap_fold_snd_length (now : Time) :
    ∀ (l : List (Sigma (fun _ : Key => item V))), l.NodupKeys →
      ∀ (acc : KVMap V × ResMap V), (∀ e ∈ l, e.1 ∉ acc.2) →
      (l.foldl (substore.reapStep true now) acc).2.entries.length =
        acc.2.entries.length + (l.filter (fun e => e.2.swept now)).length
  | [], _, _, _ => rfl
  | e :: r, nd, acc, h => by
    rw [List.nodupKeys_cons] at nd
    rw [List.foldl_cons]
    cases hsw : e.2.swept now with
    | true =>
      rw [reapStep_swept true now acc e hsw, reap_fold_snd_length now r nd.2,
        List.filter_cons_of_pos (by simpa using hsw)]
      · simp only [if_true, List.length_cons]
        rw [insert_length_of_not_mem acc.2 e.1 e.2.val (h e (List.mem_cons_self _ _))]
        omega
      · intro e2 he2 hmem
        simp only [if_true] at hmem
        rcases (AList.mem_insert acc.2).1 hmem with heq | hin
        · exact nd.1 (heq ▸ List.mem_keys_of_mem he2)
        · exact h e2 (List.mem_cons_of_mem _ he2) hin
    | false =>
      rw [reapStep_kept true now acc e hsw, reap_fold_snd_length now r nd.2 acc
        (fun e2 he2 => h e2 (List.mem_cons_of_mem _ he2)),
        List.filter_cons_of_neg (by simp [hsw])]

theorem reap_result_length (s : substore V) (now : Time) :
    (s.reap true now).2.entries.length =
      (s.kvmap.entries.filter (fun e => e.2.swept now)).length := by
  unfold substore.reap
  simp only
  rw [reap_fold_snd_length now s.kvmap.entries s.kvmap.nodupKeys]
  · simp
  · intro e _ hmem
    exact AList.not_mem_empty e.1 hmem

theorem reap_result_mem (s : substore V) (now : Time) (k : Key)
    (h : k ∈ (s.reap true now).2) : k ∈ s.kvmap := by
  rw [← AList.lookup_isSome] at h
  obtain ⟨v, hv⟩ := Option.isSome_iff_exists.1 h
  obtain ⟨it, hit, _, _⟩ := (reap_result_lookup s now k v).1 hv
  exact AList.lookup_isSome.1 (by rw [hit]; rfl)

theorem merged_length (clock : Nat → Time) :
    ∀ (l : List (substore V)) (t : ResMap V),
      l.Pairwise (fun a b => ∀ k, k ∈ a.kvmap → k ∉ b.kvmap) →
      (∀ s ∈ l, ∀ k, k ∈ s.kvmap → k ∉ t) →
      (l.foldl (fun t s => mergeDeleted t (s.reap true (clock s.num)).2) t).entries.length =
        t.entries.length +
          (l.map (fun s =>
            (s.kvmap.entries.filter (fun e => e.2.swept (clock s.num))).length)).sum
  | [], _, _, _ => by simp
  | s :: r, t, hp, ht => by
    rw [List.pairwise_cons] at hp
    rw [List.foldl_cons, merged_length clock r _ hp.2, mergeDeleted_length,
      reap_result_length]
    · simp only [List.map_cons, List.sum_cons]
      omega
    · intro k hk
      exact ht s (List.mem_cons_self _ _) k (reap_result_mem s (clock s.num) k hk)
    · intro s2 hs2 k hk hmem
      rcases mem_mergeDeleted _ _ k hmem with h1 | h1
      · exact hp.1 s2 hs2 k (reap_result_mem s (clock s.num) k h1) hk
      · exact ht s2 (List.mem_cons_of_mem _ hs2) k hk h1

theorem wf_pairwise {kvs : KVStore V} (hwf : kvs.WF) :
    kvs.stores.Pairwise (fun a b => ∀ k, k ∈ a.kvmap → k ∉ b.kvmap) := by
  rw [List.pairwise_iff_getElem]
  intro i j hi hj hij k hki hkj
  have h1 := (hwf.2 i _ (List.getElem?_eq_getElem hi)).2 k (AList.mem_keys.1 hki)
  have h2 := (hwf.2 j _ (List.getElem?_eq_getElem hj)).2 k (AList.mem_keys.1 hkj)
  rw [h1] at h2
  injection h2 with h2
  omega

theorem Len_eq_sum (kvs : KVStore V) :
    kvs.Len = (kvs.stores.map (fun s => s.kvmap.entries.length)).sum := by
  unfold KVStore.Len
  have : ∀ (l : List (substore V)) (acc : Nat),
      l.foldl (fun n store => n + store.len) acc =
        acc + (l.map (fun s => s.kvmap.entries.length)).sum := by
    intro l
    induction l with
    | nil => intro acc; simp
    | cons e t ih =>
      intro acc
      rw [List.foldl_cons, ih]
      simp [substore.len, Nat.add_assoc]
  simpa using this kvs.stores 0

theorem length_filter_split {α : Type} (p : α → Bool) :
    ∀ (l : List α), l.length = (l.filter (fun x => !p x)).length + (l.filter p).length
  | [] => rfl
  | x :: t => by
    have ih := length_filter_split p t
    cases hp : p x with
    | true =>
      rw [List.filter_cons_of_neg (by simp [hp]), List.filter_cons_of_pos (by simpa using hp)]
      simp only [List.length_cons]
      omega
    | false =>
      rw [List.filter_cons_of_pos (by simp [hp]), List.filter_cons_of_neg (by simp [hp])]
      simp only [List.length_cons]
      omega

theorem sum_length_split (clock : Nat → Time) :
    ∀ (l : List (substore V)),
      (l.map (fun s => s.kvmap.entries.length)).sum =
        (l.map (fun s => (s.reap true (clock s.num)).1.kvmap.entries.length)).sum +
          (l.map (fun s =>
            (s.kvmap.entries.filter (fun e => e.2.swept (clock s.num))).length)).sum
  | [] => rfl
  | s :: r => by
    have ih := sum_length_split clock r
    have hs := length_filter_split
      (fun e : Sigma (fun _ : Key => item V) => e.2.swept (clock s.num)) s.kvmap.entries
    simp only [List.map_cons, List.sum_cons, reap_entries] at ih ⊢
    omega

theorem sameExpiryStore_reachable : Reachable 2 4 sameExpiryStore :=
  .step (.Set [98] (some 2) 5) ⟨100⟩
    (.step (.Set [97] (some 1) 5) ⟨100⟩ (.init rfl) rfl) rfl

/-! ## The claims -/

/-- C1: in every state of a store built by `NewKVStore` with `NumStores > 0`, for every key,
value, ttl (zero, negative or positive) and clock reading, `Set` succeeds and a `Get` of the
same key right after it returns `(value, true)`. -/
theorem Get_after_Set {ns nr : Nat} (kvs : KVStore V) (hr : Reachable ns nr kvs)
    (hns : 0 < ns) (k : Key) (v : Option V) (ttl : Duration) (now : Time) :
    ∃ kvs1, kvs.Set k v ttl now = .ok kvs1 ∧ kvs1.Get k = .ok (v, true) := by
  obtain ⟨hwf, hn⟩ := hr.wf
  have hpos : 0 < kvs.numStores := by rw [hn]; exact hns
  obtain ⟨i, s, _, _, he⟩ := Set_eq kvs hwf.1 hpos k v ttl now
  refine ⟨_, he, ?_⟩
  obtain ⟨hl, hn1⟩ := shape_Set he
  rw [Get_eq _ (by rw [hl, hn1]; exact hwf.1) (by rw [hn1]; exact hpos),
    find_Set kvs _ hwf.1 hpos k v ttl now he k]
  simp [item.answer, make_val]

/-- Witness of C1 on the test `TestSet`: `Set("test", 2, 0)` on a fresh default store. -/
theorem Get_after_Set_witness :
    Reachable 64 4 nkvs ∧ 0 < 64 ∧
      ∃ kvs1, nkvs.Set testKey (some 2) 0 ⟨0⟩ = .ok kvs1 ∧
        kvs1.Get testKey = .ok (some 2, true) :=
  ⟨.init rfl, by decide, Get_after_Set nkvs (.init rfl) (by decide) testKey (some 2) 0 ⟨0⟩⟩

/-- C2, as stated, fails: a `Reap` has no single clock reading, each shard sweep reads the
clock itself. On the reachable two-shard store whose entries `"a"` and `"b"` both expire at
105, a `Reap(true)` whose sweep of shard 0 reads 104 and whose sweep of shard 1 reads 105
keeps `"a"`, removes `"b"` and returns only `"b"`; no reading `now` makes the removed entries
exactly those with an expiration at or before `now`. -/
theorem Reap_sweeps_do_not_share_one_reading :
    Reachable 2 4 sameExpiryStore ∧
      (sameExpiryStore.Reap true splitClock).1.entryAt 0 [97] = some ⟨some 1, ⟨105⟩⟩ ∧
      (sameExpiryStore.Reap true splitClock).1.entryAt 1 [98] = none ∧
      (sameExpiryStore.Reap true splitClock).2 =
        some ((∅ : ResMap Nat).insert [98] (some 2)) ∧
      ¬ ∃ now : Time, ∀ i k it, sameExpiryStore.entryAt i k = some it →
        ((sameExpiryStore.Reap true splitClock).1.entryAt i k = none ↔ it.Expired now) := by
  refine ⟨sameExpiryStore_reachable, rfl, rfl, rfl, ?_⟩
  rintro ⟨now, h⟩
  have ha := h 0 [97] ⟨some 1, ⟨105⟩⟩ rfl
  have hb := (h 1 [98] ⟨some 2, ⟨105⟩⟩ rfl).1 rfl
  have hkept : (sameExpiryStore.Reap true splitClock).1.entryAt 0 [97] =
      some ⟨some 1, ⟨105⟩⟩ := rfl
  apply absurd (ha.2 ⟨by decide, hb.2⟩)
  rw [hkept]
  exact fun e => by cases e

/-- C2, amended: for every well-formed store state and all clock readings `clock i` of the
shard sweeps of one `Reap(true)`, the call returns a non-nil map and keeps the shards in
place; an entry of shard `i` whose expiration is set and is at most `clock i` is removed (an
expiration equal to the reading included), every other entry is kept with its value and
expiration, no entry appears; and the returned map binds `k` to `v` exactly when a removed
entry bound `k` to `v`. With all sweeps reading the same `now` these are exactly the entries
whose expiration is set and at most `now`. -/
theorem Reap_true_removes_exactly_expired_per_shard (kvs : KVStore V) (hwf : kvs.WF)
    (clock : Nat → Time) :
    ∃ m, (kvs.Reap true clock).2 = some m ∧
      (kvs.Reap true clock).1.stores.length = kvs.stores.length ∧
      (kvs.Reap true clock).1.numStores = kvs.numStores ∧
      (∀ i k it, kvs.entryAt i k = some it → it.Expired (clock i) →
        (kvs.Reap true clock).1.entryAt i k = none) ∧
      (∀ i k it, kvs.entryAt i k = some it → ¬ it.Expired (clock i) →
        (kvs.Reap true clock).1.entryAt i k = some it) ∧
      (∀ i k, kvs.entryAt i k = none → (kvs.Reap true clock).1.entryAt i k = none) ∧
      (∀ k v, m.lookup k = some v ↔
        ∃ i it, kvs.entryAt i k = some it ∧ it.Expired (clock i) ∧ it.val = v) := by
  refine ⟨_, Reap_result_true kvs clock, (shape_Reap kvs true clock).1, rfl, ?_, ?_, ?_, ?_⟩
  · intro i k it h hex
    rw [entryAt_Reap_wf hwf, h]
    simp [Option.filter, (swept_iff_Expired (clock i) it).2 hex]
  · intro i k it h hex
    rw [entryAt_Reap_wf hwf, h]
    have : it.swept (clock i) = false := by
      cases hsw : it.swept (clock i) with
      | false => rfl
      | true => exact absurd ((swept_iff_Expired (clock i) it).1 hsw) hex
    simp [Option.filter, this]
  · intro i k h
    rw [entryAt_Reap_wf hwf, h]
    rfl
  · intro k v
    obtain ⟨m, hm, hiff⟩ := Reap_result_entryAt hwf clock k v
    rw [Reap_result_true] at hm
    injection hm with hm
    rw [hm, hiff]
    constructor
    · rintro ⟨i, it, he, hsw, hval⟩
      exact ⟨i, it, he, (swept_iff_Expired (clock i) it).1 hsw, hval⟩
    · rintro ⟨i, it, he, hex, hval⟩
      exact ⟨i, it, he, (swept_iff_Expired (clock i) it).2 hex, hval⟩

/-- Witness of the amended C2: the two-shard store whose entries both expire at 105, reaped
with the sweep of shard 0 reading 104 and the sweep of shard 1 reading 105. -/
theorem Reap_true_removes_exactly_expired_per_shard_witness :
    sameExpiryStore.WF ∧ ∃ m, (sameExpiryStore.Reap true splitClock).2 = some m ∧
      (sameExpiryStore.Reap true splitClock).1.stores.length =
        sameExpiryStore.stores.length ∧
      (sameExpiryStore.Reap true splitClock).1.numStores = sameExpiryStore.numStores ∧
      (∀ i k it, sameExpiryStore.entryAt i k = some it → it.Expired (splitClock i) →
        (sameExpiryStore.Reap true splitClock).1.entryAt i k = none) ∧
      (∀ i k it, sameExpiryStore.entryAt i k = some it → ¬ it.Expired (splitClock i) →
        (sameExpiryStore.Reap true splitClock).1.entryAt i k = some it) ∧
      (∀ i k, sameExpiryStore.entryAt i k = none →
        (sameExpiryStore.Reap true splitClock).1.entryAt i k = none) ∧
      (∀ k v, m.lookup k = some v ↔
        ∃ i it, sameExpiryStore.entryAt i k = some it ∧ it.Expired (splitClock i) ∧
          it.val = v) :=
  ⟨sameExpiryStore_reachable.wf.1,
    Reap_true_removes_exactly_expired_per_shard sameExpiryStore
      sameExpiryStore_reachable.wf.1 splitClock⟩

/-- C3: in every state of a store built with `NumStores > 0`, `Set(k, v, ttl)` with
`ttl <= 0` stores `v` without an expiration, and after any sequence of calls at any clock
readings that are `Reap` calls or per-key calls on other keys (no `Set`, `SetNX` or `Delete`
on `k`), the sequence has run without a panic and `Get(k)` still returns `(v, true)`. -/
theorem unexpiring_entry_survives_reaps {ns nr : Nat} (kvs : KVStore V)
    (hr : Reachable ns nr kvs) (hns : 0 < ns) (k : Key) (v : Option V) (ttl : Duration)
    (httl : ttl ≤ 0) (now : Time) (calls : List (Op V × Time))
    (hcalls : ∀ c ∈ calls, c.1.key ≠ some k) :
    ∃ kvs1 kvs2, kvs.Set k v ttl now = .ok kvs1 ∧
      kvs1.find k = some { val := v, expiry := Time.zero } ∧
      kvs1.run calls = .ok kvs2 ∧ kvs2.Get k = .ok (v, true) := by
  obtain ⟨hwf, hn⟩ := hr.wf
  have hpos : 0 < kvs.numStores := by rw [hn]; exact hns
  obtain ⟨i, s, _, _, he⟩ := Set_eq kvs hwf.1 hpos k v ttl now
  obtain ⟨hl, hn1⟩ := shape_Set he
  have hmk : item.make v ttl now = { val := v, expiry := Time.zero } := by
    unfold item.make
    rw [if_neg (not_lt.2 httl)]
  have hf : (kvs.putStore i (s.set k v ttl now)).find k =
      some { val := v, expiry := Time.zero } := by
    rw [find_Set kvs _ hwf.1 hpos k v ttl now he k, if_pos rfl, hmk]
  obtain ⟨kvs2, hrun, hf2, hlen2, hn2⟩ :=
    run_keeps_unexpiring k { val := v, expiry := Time.zero } rfl calls _
      (by rw [hl, hn1]; exact hwf.1) (by rw [hn1]; exact hpos) hcalls hf
  refine ⟨_, kvs2, he, hf, hrun, ?_⟩
  rw [Get_eq kvs2 hlen2 (by rw [hn2, hn1]; exact hpos), hf2]
  rfl

/-- Witness of C3: `Set("test", 2, -1)` on a fresh default store, then a `Reap`, a `Set` and
a `Delete` of the key `"a"` and another `Reap` whose sweeps read growing clock readings. -/
theorem unexpiring_entry_survives_reaps_witness :
    Reachable 64 4 nkvs ∧ 0 < 64 ∧ (-1 : Duration) ≤ 0 ∧
      (∀ c ∈ [((Op.Reap true (fun _ => ⟨50⟩) : Op Nat), (⟨50⟩ : Time)),
          (.Set [97] (some 1) 5, ⟨60⟩), (.Delete [97], ⟨70⟩),
          (.Reap false (fun i => ⟨1000 + i⟩), ⟨1000⟩)], c.1.key ≠ some testKey) ∧
      ∃ kvs1 kvs2, nkvs.Set testKey (some 2) (-1) ⟨10⟩ = .ok kvs1 ∧
        kvs1.find testKey = some { val := some 2, expiry := Time.zero } ∧
        kvs1.run [(.Reap true (fun _ => ⟨50⟩), ⟨50⟩), (.Set [97] (some 1) 5, ⟨60⟩),
          (.Delete [97], ⟨70⟩), (.Reap false (fun i => ⟨1000 + i⟩), ⟨1000⟩)] = .ok kvs2 ∧
        kvs2.Get testKey = .ok (some 2, true) :=
  ⟨.init rfl, by decide, by decide, by decide,
    unexpiring_entry_survives_reaps nkvs (.init rfl) (by decide) testKey (some 2) (-1)
      (by decide) ⟨10⟩ _ (by decide)⟩

/-- C4: for every well-formed store state with at least one shard, `SetNX(k, v, ttl)`
returns `true` exactly when `Get(k)` reported not-found before the call; an entry that is
present, even with an expiration at or before the clock reading, makes it return `false`;
and when it returns `true`, `Get(k)` afterwards returns `(v, true)`. -/
theorem SetNX_true_iff_absent (kvs : KVStore V) (hwf : kvs.WF) (hpos : 0 < kvs.numStores)
    (k : Key) (v : Option V) (ttl : Duration) (now : Time) :
    ∃ kvs1 b val found, kvs.SetNX k v ttl now = .ok (kvs1, b) ∧
      kvs.Get k = .ok (val, found) ∧ (b = true ↔ found = false) ∧
      (∀ it, kvs.find k = some it → it.Expired now → b = false) ∧
      (b = true → kvs1.Get k = .ok (v, true)) := by
  obtain ⟨kvs1, he, hl1, hn1, _, hf⟩ := find_SetNX hwf.1 hpos k v ttl now
  refine ⟨kvs1, (kvs.find k).isNone, (item.answer (kvs.find k)).1,
    (item.answer (kvs.find k)).2, he, Get_eq kvs hwf.1 hpos k, ?_, ?_, ?_⟩
  · cases kvs.find k <;> simp [item.answer]
  · intro it h _
    rw [h]; rfl
  · intro hb
    rw [Get_eq kvs1 (by rw [hl1, hn1]; exact hwf.1) (by rw [hn1]; exact hpos), hf k]
    simp [hb, item.answer, make_val]

/-- Witness of C4 on the first call of `TestSetNX`: `SetNX("test", 2, 0)` on a fresh store. -/
theorem SetNX_true_iff_absent_witness :
    nkvs.WF ∧ 0 < nkvs.numStores ∧
      ∃ kvs1 b val found, nkvs.SetNX testKey (some 2) 0 ⟨0⟩ = .ok (kvs1, b) ∧
        nkvs.Get testKey = .ok (val, found) ∧ (b = true ↔ found = false) ∧
        (∀ it, nkvs.find testKey = some it → it.Expired ⟨0⟩ → b = false) ∧
        (b = true → kvs1.Get testKey = .ok (some 2, true)) :=
  ⟨nkvs_reachable.wf.1, by decide,
    SetNX_true_iff_absent nkvs nkvs_reachable.wf.1 (by decide) testKey (some 2) 0 ⟨0⟩⟩

/-- C5: for every well-formed store state with at least one shard and every key `k`,
`Delete(k)` does not panic and `Get(k)` after it returns `(nil, false)`; and when `Get(k)`
reported not-found before the call, the store after `Delete(k)` is the store before it. -/
theorem Delete_then_Get_not_found (kvs : KVStore V) (hwf : kvs.WF)
    (hpos : 0 < kvs.numStores) (k : Key) :
    ∃ kvs1, kvs.Delete k = .ok kvs1 ∧ kvs1.Get k = .ok (none, false) ∧
      (∀ val, kvs.Get k = .ok (val, false) → kvs1 = kvs) := by
  obtain ⟨i, s, hq, hs, he⟩ := Delete_eq kvs hwf.1 hpos k
  obtain ⟨hl1, hn1⟩ := shape_Delete he
  refine ⟨_, he, ?_, ?_⟩
  · rw [Get_eq _ (by rw [hl1, hn1]; exact hwf.1) (by rw [hn1]; exact hpos),
      find_Delete kvs _ hwf.1 hpos k he k, if_pos rfl]
    rfl
  · intro val hg
    rw [Get_eq kvs hwf.1 hpos k] at hg
    injection hg with hg
    have hnone : s.kvmap.lookup k = none := by
      rw [← find_eq_lookup kvs hq hs]
      exact ((answer_found _ _).1 hg).1
    have : s.delete k = s := by
      unfold substore.delete
      rw [erase_absent s.kvmap k hnone]
    rw [this]
    exact putStore_self kvs hs

/-- Witness of C5: `Delete("test")` on a fresh default store, where the key is absent. -/
theorem Delete_then_Get_not_found_witness :
    nkvs.WF ∧ 0 < nkvs.numStores ∧
      ∃ kvs1, nkvs.Delete testKey = .ok kvs1 ∧ kvs1.Get testKey = .ok (none, false) ∧
        (∀ val, nkvs.Get testKey = .ok (val, false) → kvs1 = nkvs) :=
  ⟨nkvs_reachable.wf.1, by decide,
    Delete_then_Get_not_found nkvs nkvs_reachable.wf.1 (by decide) testKey⟩

/-- C7: in every state reachable from `NewKVStore` with `NumStores > 0` by `Set`, `SetNX`,
`Delete` and `Reap`, `Keys()` has no repeated key, lists exactly the keys for which `Get`
reports found, and `Len()` is the length of `Keys()`. -/
theorem Keys_exactly_present_keys {ns nr : Nat} (kvs : KVStore V)
    (hr : Reachable ns nr kvs) (hns : 0 < ns) :
    kvs.Keys.Nodup ∧ (∀ k, k ∈ kvs.Keys ↔ ∃ val, kvs.Get k = .ok (val, true)) ∧
      (∀ k, (∃ val, kvs.Get k = .ok (val, true)) → kvs.Keys.count k = 1) ∧
      kvs.Len = kvs.Keys.length := by
  obtain ⟨hwf, hn⟩ := hr.wf
  have hpos : 0 < kvs.numStores := by rw [hn]; exact hns
  have hiff : ∀ k, k ∈ kvs.Keys ↔ ∃ val, kvs.Get k = .ok (val, true) := by
    intro k
    rw [mem_Keys_iff_find hwf, Get_eq kvs hwf.1 hpos k]
    cases kvs.find k with
    | none => simp [item.answer]
    | some it => simp [item.answer]
  refine ⟨Keys_nodup hwf, hiff, fun k hk => ?_, Len_eq kvs⟩
  have h := List.count_eq_one_of_mem (Keys_nodup hwf) ((hiff k).2 hk)
  convert h using 2
  exact lawful_beq_subsingleton _ _

/-- Witness of C7: the two-shard store holding `"a"` and `"b"`. -/
theorem Keys_exactly_present_keys_witness :
    Reachable 2 4 ttlStore ∧ 0 < 2 ∧
      ttlStore.Keys.Nodup ∧
      (∀ k, k ∈ ttlStore.Keys ↔ ∃ val, ttlStore.Get k = .ok (val, true)) ∧
      (∀ k, (∃ val, ttlStore.Get k = .ok (val, true)) → ttlStore.Keys.count k = 1) ∧
      ttlStore.Len = ttlStore.Keys.length :=
  ⟨ttlStore_reachable, by decide,
    Keys_exactly_present_keys ttlStore ttlStore_reachable (by decide)⟩

/-- C6: in every state of a store built with `NumStores > 0`, after `Set(k, v, ttl)` with
`ttl > 0` and any further calls at any clock readings, readings past the expiration
included, none of them a `Reap`, a `Delete` or a `Set` of `k`, `Get(k)` returns `(v, true)`,
`Keys()` lists `k` once and `Len()` is the length of `Keys()`. `Get`, `Keys` and `Len` read no
clock, and the clock readings of the calls before them do not matter either: the same calls,
none a `Reap`, made at any other clock readings lead to the same `Get`, `Keys` and `Len`. -/
theorem only_Reap_consults_expirations {ns nr : Nat} (kvs : KVStore V)
    (hr : Reachable ns nr kvs) (hns : 0 < ns) (k : Key) (v : Option V) (ttl : Duration)
    (httl : 0 < ttl) (now : Time) (calls : List (Op V × Time))
    (hcalls : ∀ c ∈ calls,
      c.1.isReap = false ∧ c.1.isDelete = false ∧ c.1.isSetOf k = false) :
    (∃ kvs1 kvs2, kvs.Set k v ttl now = .ok kvs1 ∧
      kvs1.find k = some { val := v, expiry := now.Add ttl } ∧
      kvs1.run calls = .ok kvs2 ∧ kvs2.Get k = .ok (v, true) ∧
      k ∈ kvs2.Keys ∧ kvs2.Keys.count k = 1 ∧ kvs2.Len = kvs2.Keys.length) ∧
    (∀ callsA callsB : List (Op V × Time), callsA.map Prod.fst = callsB.map Prod.fst →
      (∀ c ∈ callsA, c.1.isReap = false) →
      ∃ a b, kvs.run callsA = .ok a ∧ kvs.run callsB = .ok b ∧
        (∀ k2, a.Get k2 = b.Get k2) ∧ a.Keys = b.Keys ∧ a.Len = b.Len) := by
  obtain ⟨hwf, hn⟩ := hr.wf
  have hpos : 0 < kvs.numStores := by rw [hn]; exact hns
  constructor
  · obtain ⟨i, s, _, _, he⟩ := Set_eq kvs hwf.1 hpos k v ttl now
    obtain ⟨_, hn1⟩ := shape_Set he
    have hwf1 := wf_Set hwf he
    have hmk : item.make v ttl now = { val := v, expiry := now.Add ttl } := by
      unfold item.make
      rw [if_pos httl]
    have hf : (kvs.putStore i (s.set k v ttl now)).find k =
        some { val := v, expiry := now.Add ttl } := by
      rw [find_Set kvs _ hwf.1 hpos k v ttl now he k, if_pos rfl, hmk]
    obtain ⟨kvs2, hrun, ⟨it, hit, hval⟩, hwf2, hn2⟩ :=
      run_keeps_value k v calls _ hwf1 (by rw [hn1]; exact hpos) hcalls ⟨_, hf, rfl⟩
    have hmem : k ∈ kvs2.Keys := (mem_Keys_iff_find hwf2 k).2 ⟨it, hit⟩
    refine ⟨_, kvs2, he, hf, hrun, ?_, hmem, count_Keys hwf2 hmem, Len_eq kvs2⟩
    rw [Get_eq kvs2 hwf2.1 (by rw [hn2, hn1]; exact hpos), hit]
    simp [item.answer, hval]
  · intro callsA callsB hm hnr
    obtain ⟨a, b, ha, hb, hab⟩ :=
      run_sameValues callsA callsB kvs kvs (sameValues_refl kvs) hwf.1 hwf.1 hpos hm hnr
    exact ⟨a, b, ha, hb, sameValues_Get hab, sameValues_Keys hab, sameValues_Len hab⟩

/-- Witness of C6: `Set("test", 2, 5)` at clock reading 10 on a fresh default store, then
`SetNX("test", 9, 0)` at reading 1000 and `Set("a", 1, 1)` at reading 2000. -/
theorem only_Reap_consults_expirations_witness :
    Reachable 64 4 nkvs ∧ 0 < 64 ∧ (0 : Duration) < 5 ∧
      (∀ c ∈ [((Op.SetNX testKey (some 9) 0 : Op Nat), (⟨1000⟩ : Time)),
          (.Set [97] (some 1) 1, ⟨2000⟩)],
        c.1.isReap = false ∧ c.1.isDelete = false ∧ c.1.isSetOf testKey = false) ∧
      ∃ kvs1 kvs2, nkvs.Set testKey (some 2) 5 ⟨10⟩ = .ok kvs1 ∧
        kvs1.find testKey = some { val := some 2, expiry := (⟨10⟩ : Time).Add 5 } ∧
        kvs1.run [(.SetNX testKey (some 9) 0, ⟨1000⟩), (.Set [97] (some 1) 1, ⟨2000⟩)] =
          .ok kvs2 ∧
        kvs2.Get testKey = .ok (some 2, true) ∧
        testKey ∈ kvs2.Keys ∧ kvs2.Keys.count testKey = 1 ∧ kvs2.Len = kvs2.Keys.length :=
  ⟨nkvs_reachable, by decide, by decide, by decide,
    (only_Reap_consults_expirations nkvs nkvs_reachable (by decide) testKey (some 2) 5
      (by decide) ⟨10⟩ _ (by decide)).1⟩

/-- C8, as stated, fails: with `NumStores = 0` (and the default `NumReapers = 4`)
`NewKVStore` does not fail; it returns a store without shards. -/
theorem NewKVStore_zero_shards_does_not_fail :
    (NewKVStore 0 4 : Except Panic (KVStore Nat)) =
        .ok { sema := 4, stores := [], numStores := 0 } ∧
      ¬ ∃ p, (NewKVStore 0 4 : Except Panic (KVStore Nat)) = .error p :=
  ⟨rfl, fun ⟨_, h⟩ => by cases h⟩

/-- C8, amended: `NewKVStore` checks neither variable. With `NumStores = 0` and a positive
`NumReapers` it returns a store without shards; on that store `Keys()` is empty, `Len()` is 0
and `Reap` changes nothing, while every `Set`, `SetNX`, `Get` and `Delete` panics with a
division by zero: the failure comes at the first per-key call, not at construction. -/
theorem NewKVStore_zero_shards_fails_late (nr : Nat) (hnr : 0 < nr) :
    ∃ kvs : KVStore V, NewKVStore 0 nr = .ok kvs ∧ 0 < kvs.sema ∧ kvs.stores = [] ∧
      kvs.Keys = [] ∧ kvs.Len = 0 ∧
      (∀ results clock, (kvs.Reap results clock).1 = kvs) ∧
      ∀ k v ttl now,
        kvs.Set k v ttl now = .error .divideByZero ∧
        kvs.SetNX k v ttl now = .error .divideByZero ∧
        kvs.Get k = .error .divideByZero ∧
        kvs.Delete k = .error .divideByZero := by
  exact ⟨_, rfl, hnr, rfl, rfl, rfl, fun _ _ => rfl, fun _ _ _ _ => ⟨rfl, rfl, rfl, rfl⟩⟩

/-- Witness of the amended C8 under the default `NumReapers = 4`. -/
theorem NewKVStore_zero_shards_fails_late_witness :
    0 < 4 ∧ ∃ kvs : KVStore Nat, NewKVStore 0 4 = .ok kvs ∧ 0 < kvs.sema ∧ kvs.stores = [] ∧
      kvs.Keys = [] ∧ kvs.Len = 0 ∧
      (∀ results clock, (kvs.Reap results clock).1 = kvs) ∧
      ∀ k v ttl now,
        kvs.Set k v ttl now = .error .divideByZero ∧
        kvs.SetNX k v ttl now = .error .divideByZero ∧
        kvs.Get k = .error .divideByZero ∧
        kvs.Delete k = .error .divideByZero :=
  ⟨by decide, NewKVStore_zero_shards_fails_late 4 (by decide)⟩

/-- C9: for every key and every shard count `N > 0`, `qhash key N` is a value below `N`; and
in every state of a store built by `NewKVStore` with `NumStores = N` there is a shard at
every index below `N`, carrying that index, the key routes to one of them, and `Set`,
`SetNX`, `Get` and `Delete` on the key all return without a panic. -/
theorem qhash_reaches_existing_shard {N nr : Nat} (kvs : KVStore V)
    (hr : Reachable N nr kvs) (hN : 0 < N) (key : Key) :
    (∃ i, qhash key N = .ok i ∧ i < N) ∧
      (∀ i, i < N → ∃ s, kvs.getStore i = some s ∧ s.num = i) ∧
      (∃ i s, qhash key kvs.numStores = .ok i ∧ i < N ∧ kvs.getStore i = some s) ∧
      (∀ v ttl now, ∃ kvs1, kvs.Set key v ttl now = .ok kvs1) ∧
      (∀ v ttl now, ∃ r, kvs.SetNX key v ttl now = .ok r) ∧
      (∃ r, kvs.Get key = .ok r) ∧
      (∃ kvs1, kvs.Delete key = .ok kvs1) := by
  obtain ⟨hwf, hn⟩ := hr.wf
  have hpos : 0 < kvs.numStores := by rw [hn]; exact hN
  refine ⟨⟨_, qhash_pos key hN, Nat.mod_lt _ hN⟩, ?_, ?_, ?_, ?_, ?_, ?_⟩
  · intro i hi
    have hi2 : i < kvs.stores.length := by rw [hwf.1, hn]; exact hi
    exact ⟨kvs.stores[i], List.getElem?_eq_getElem hi2,
      (hwf.2 i _ (List.getElem?_eq_getElem hi2)).1⟩
  · obtain ⟨i, s, hq, hi, hs⟩ := route_ok kvs hwf.1 hpos key
    exact ⟨i, s, hq, by rw [← hn]; exact hi, hs⟩
  · intro v ttl now
    obtain ⟨i, s, _, _, he⟩ := Set_eq kvs hwf.1 hpos key v ttl now
    exact ⟨_, he⟩
  · intro v ttl now
    obtain ⟨i, s, _, _, he⟩ := SetNX_eq kvs hwf.1 hpos key v ttl now
    exact ⟨_, he⟩
  · exact ⟨_, Get_eq kvs hwf.1 hpos key⟩
  · obtain ⟨i, s, _, _, he⟩ := Delete_eq kvs hwf.1 hpos key
    exact ⟨_, he⟩

/-- Witness of C9: the key `"test"` on a fresh store of the default 64 shards. -/
theorem qhash_reaches_existing_shard_witness :
    Reachable 64 4 nkvs ∧ 0 < 64 ∧
      (∃ i, qhash testKey 64 = .ok i ∧ i < 64) ∧
      (∀ i, i < 64 → ∃ s, nkvs.getStore i = some s ∧ s.num = i) ∧
      (∃ i s, qhash testKey nkvs.numStores = .ok i ∧ i < 64 ∧ nkvs.getStore i = some s) ∧
      (∀ v ttl now, ∃ kvs1, nkvs.Set testKey v ttl now = .ok kvs1) ∧
      (∀ v ttl now, ∃ r, nkvs.SetNX testKey v ttl now = .ok r) ∧
      (∃ r, nkvs.Get testKey = .ok r) ∧
      (∃ kvs1, nkvs.Delete testKey = .ok kvs1) :=
  ⟨nkvs_reachable, by decide,
    qhash_reaches_existing_shard nkvs nkvs_reachable (by decide) testKey⟩

/-- C10 fails on the code at a negative ttl: `Set("test", 2, -1s)` at clock reading 5s on a
fresh default store stores the entry with the zero expiry, not with the insertion time plus
ttl (4s), and a `Reap` whose sweeps all read 6s keeps the entry. -/
theorem Set_negative_ttl_never_expires :
    ∃ kvs1, nkvs.Set testKey (some 2) (-1000000000) ⟨5000000000⟩ = .ok kvs1 ∧
      kvs1.find testKey = some { val := some 2, expiry := Time.zero } ∧
      (⟨5000000000⟩ : Time).Add (-1000000000) = ⟨4000000000⟩ ∧
      (kvs1.Reap true (fun _ => ⟨6000000000⟩)).1.find testKey =
        some { val := some 2, expiry := Time.zero } ∧
      (kvs1.Reap true (fun _ => ⟨6000000000⟩)).2 = some ∅ :=
  ⟨_, rfl, rfl, rfl, rfl, rfl⟩

/-- C11: for every store state and all clock readings of the shard sweeps, `Reap(false)`
returns the nil map and leaves the store in the state `Reap(true)` leaves it in at those
readings, so it removes the same entries: in each shard those whose expiration is set and at
most the reading of the sweep of that shard, and no other. -/
theorem Reap_false_same_state_nil_map (kvs : KVStore V) (clock : Nat → Time) :
    (kvs.Reap false clock).2 = none ∧ (kvs.Reap false clock).1 = (kvs.Reap true clock).1 ∧
      (∀ i s k it, kvs.stores[i]? = some s → s.kvmap.lookup k = some it →
        it.Expired (clock s.num) → (kvs.Reap false clock).1.entryAt i k = none) ∧
      (∀ i s k it, kvs.stores[i]? = some s → s.kvmap.lookup k = some it →
        ¬ it.Expired (clock s.num) → (kvs.Reap false clock).1.entryAt i k = some it) := by
  refine ⟨Reap_snd_false kvs clock, Reap_fst_results kvs false true clock, ?_, ?_⟩
  · intro i s k it hs h hex
    rw [entryAt_Reap, hs]
    simp [h, Option.filter, (swept_iff_Expired (clock s.num) it).2 hex]
  · intro i s k it hs h hex
    rw [entryAt_Reap, hs]
    have : it.swept (clock s.num) = false := by
      cases hsw : it.swept (clock s.num) with
      | false => rfl
      | true => exact absurd ((swept_iff_Expired (clock s.num) it).1 hsw) hex
    simp [h, Option.filter, this]

/-- C20: for every store state and all clock readings of the shard sweeps, in particular
when every sweep reads the same `now`, a second `Reap(true)` at the same readings right
after a first one returns an empty map and leaves the store as the first `Reap` left it. -/
theorem Reap_twice_is_idempotent (kvs : KVStore V) (clock : Nat → Time) :
    (kvs.Reap true clock).1.Reap true clock = ((kvs.Reap true clock).1, some ∅) := by
  have h1 : (kvs.Reap true clock).1.stores =
      kvs.stores.map (fun s => (s.reap true (clock s.num)).1) := by
    simp [KVStore.Reap, reapStores_fst]
  have h2 : reapStores true clock (kvs.Reap true clock).1.stores (some ∅) =
      ((kvs.Reap true clock).1.stores, some ∅) := by
    apply reapStores_unswept
    intro s hs
    rw [h1] at hs
    obtain ⟨s0, _, rfl⟩ := List.mem_map.1 hs
    exact reap_reap s0 true true (clock s0.num)
  show (({ (kvs.Reap true clock).1 with
      stores := (reapStores true clock (kvs.Reap true clock).1.stores
        (if true = true then some ∅ else none)).1 } : KVStore V),
    (reapStores true clock (kvs.Reap true clock).1.stores
      (if true = true then some ∅ else none)).2) = _
  simp only [if_true, h2]

/-- C13: on a store freshly built by `NewKVStore` with `NumStores > 0`, `Get(k)` returns
`(nil, false)` for every key; and in every store state, whenever `Get` reports not-found the
value it returns is nil. -/
theorem Get_fresh_store_not_found {ns nr : Nat} (hns : 0 < ns) (kvs : KVStore V)
    (h : NewKVStore ns nr = .ok kvs) (k : Key) :
    kvs.Get k = .ok (none, false) ∧
      ∀ (kvs2 : KVStore V) (k2 : Key) (val : Option V),
        kvs2.Get k2 = .ok (val, false) → val = none := by
  obtain ⟨hwf, hn⟩ := NewKVStore_wf h
  constructor
  · rw [Get_eq kvs hwf.1 (by rw [hn]; exact hns) k, find_fresh h k]
    rfl
  · intro kvs2 k2 val hg
    obtain ⟨i, s, _, _, hr⟩ := Get_inv hg
    rw [get_eq_answer] at hr
    exact ((answer_found _ _).1 hr.symm).2

/-- Witness of C13: the fresh store of the tests and the key `"test"`. -/
theorem Get_fresh_store_not_found_witness :
    0 < 64 ∧ (NewKVStore 64 4 : Except Panic (KVStore Nat)) = .ok nkvs ∧
      nkvs.Get testKey = .ok (none, false) ∧
      ∀ (kvs2 : KVStore Nat) (k2 : Key) (val : Option Nat),
        kvs2.Get k2 = .ok (val, false) → val = none :=
  ⟨by decide, rfl, Get_fresh_store_not_found (by decide) nkvs rfl testKey⟩

/-- C16: when `SetNX(k, v2, ttl2)` returns `false`, the store after the call is the store
before it: the key was present, `Get(k)` and the stored entry, expiration included, are
what they were, and every later `Reap`, at any clock readings, removes and returns what it
would have without the call. Nothing is asked of the expiration of the existing entry. -/
theorem SetNX_false_leaves_store_unchanged (kvs kvs1 : KVStore V) (k : Key)
    (v2 : Option V) (ttl2 : Duration) (now : Time)
    (h : kvs.SetNX k v2 ttl2 now = .ok (kvs1, false)) :
    kvs1 = kvs ∧ (∃ it, kvs.find k = some it ∧ kvs1.find k = some it ∧
        kvs1.Get k = .ok (it.val, true)) ∧
      kvs1.Get k = kvs.Get k ∧
      ∀ results r, kvs1.Reap results r = kvs.Reap results r := by
  obtain ⟨i, s, hq, hs, hr⟩ := SetNX_inv h
  cases hl : s.kvmap.lookup k with
  | none =>
    rw [setNX_absent s k v2 ttl2 now hl] at hr
    injection hr with _ h2
    cases h2
  | some it =>
    rw [setNX_present s k v2 ttl2 now hl, putStore_self kvs hs] at hr
    injection hr with h1 _
    subst h1
    refine ⟨rfl, ⟨it, ?_, ?_, ?_⟩, rfl, fun _ _ => rfl⟩
    · rw [find_eq_lookup kvs1 hq hs, hl]
    · rw [find_eq_lookup kvs1 hq hs, hl]
    · simp [KVStore.Get, hq, KVStore.getStore, hs, get_eq_answer, hl, item.answer]

/-- Witness of C16: `SetNX("a", 9, 50)` at clock reading 200 on the two-shard store, where
`"a"` is present with an expiration (105) that has already passed. -/
theorem SetNX_false_leaves_store_unchanged_witness :
    ttlStore.SetNX [97] (some 9) 50 ⟨200⟩ = .ok (ttlStore, false) ∧
      ttlStore = ttlStore ∧ (∃ it, ttlStore.find [97] = some it ∧
        ttlStore.find [97] = some it ∧ ttlStore.Get [97] = .ok (it.val, true)) ∧
      ttlStore.Get [97] = ttlStore.Get [97] ∧
      ∀ results r, ttlStore.Reap results r = ttlStore.Reap results r :=
  ⟨rfl, SetNX_false_leaves_store_unchanged ttlStore ttlStore [97] (some 9) 50 ⟨200⟩ rfl⟩

/-- C18: in every state reachable from `NewKVStore` with `NumStores = N > 0`, a key stored in
the shard at index `i` routes to `i`, so no key is stored in two shards; the store has `N`
shards, numbered `0 .. N-1` in place; and every call returns a store with the same shard
count, the same shard numbers and the same semaphore. -/
theorem routing_invariant {N nr : Nat} (kvs : KVStore V) (hr : Reachable N nr kvs)
    (hN : 0 < N) :
    (∀ i k it, kvs.entryAt i k = some it → qhash k N = .ok i) ∧
      (∀ i j k it, kvs.entryAt i k = some it → i ≠ j → kvs.entryAt j k = none) ∧
      kvs.numStores = N ∧ kvs.stores.length = N ∧
      kvs.stores.map (fun s => s.num) = List.range N ∧
      ∀ op now, ∃ kvs1, kvs.apply op now = .ok kvs1 ∧ kvs1.numStores = N ∧
        kvs1.stores.length = N ∧ kvs1.stores.map (fun s => s.num) = List.range N := by
  obtain ⟨hwf, hn⟩ := hr.wf
  refine ⟨?_, fun i j k it h hij => wf_disjoint hwf h hij, hn, by rw [hwf.1, hn],
    by rw [wf_nums hwf, hn], ?_⟩
  · intro i k it h
    rw [← hn]
    exact wf_entryAt_route hwf h
  · intro op now
    obtain ⟨kvs1, he, _, _⟩ := apply_total kvs hwf.1 (by rw [hn]; exact hN) op now
    obtain ⟨hwf1, hn1⟩ := (Reachable.step op now hr he).wf
    exact ⟨kvs1, he, hn1, by rw [hwf1.1, hn1], by rw [wf_nums hwf1, hn1]⟩

/-- Witness of C18: the two-shard store holding `"a"` in shard 0 and `"b"` in shard 1. -/
theorem routing_invariant_witness :
    Reachable 2 4 ttlStore ∧ 0 < 2 ∧
      (∀ i k it, ttlStore.entryAt i k = some it → qhash k 2 = .ok i) ∧
      (∀ i j k it, ttlStore.entryAt i k = some it → i ≠ j → ttlStore.entryAt j k = none) ∧
      ttlStore.numStores = 2 ∧ ttlStore.stores.length = 2 ∧
      ttlStore.stores.map (fun s => s.num) = List.range 2 ∧
      ∀ op now, ∃ kvs1, ttlStore.apply op now = .ok kvs1 ∧ kvs1.numStores = 2 ∧
        kvs1.stores.length = 2 ∧ kvs1.stores.map (fun s => s.num) = List.range 2 :=
  ⟨ttlStore_reachable, by decide, routing_invariant ttlStore ttlStore_reachable (by decide)⟩

/-- C19: for every well-formed store state with at least one shard and every two distinct
keys `k` and `k2`, routed to the same shard or not, `Set`, `SetNX` and `Delete` on `k` return
a store in which the entry of `k2`, value and expiration, and the result of `Get(k2)` are
what they were. -/
theorem per_key_calls_are_framed (kvs : KVStore V) (hwf : kvs.WF)
    (hpos : 0 < kvs.numStores) (k k2 : Key) (hne : k ≠ k2) (v : Option V)
    (ttl : Duration) (now : Time) :
    (∃ kvs1, kvs.Set k v ttl now = .ok kvs1 ∧ kvs1.find k2 = kvs.find k2 ∧
        kvs1.Get k2 = kvs.Get k2) ∧
      (∃ kvs1 b, kvs.SetNX k v ttl now = .ok (kvs1, b) ∧ kvs1.find k2 = kvs.find k2 ∧
        kvs1.Get k2 = kvs.Get k2) ∧
      (∃ kvs1, kvs.Delete k = .ok kvs1 ∧ kvs1.find k2 = kvs.find k2 ∧
        kvs1.Get k2 = kvs.Get k2) := by
  have hne2 : k2 ≠ k := fun e => hne e.symm
  refine ⟨?_, ?_, ?_⟩
  · obtain ⟨i, s, _, _, he⟩ := Set_eq kvs hwf.1 hpos k v ttl now
    obtain ⟨hl1, hn1⟩ := shape_Set he
    have hf := find_Set kvs _ hwf.1 hpos k v ttl now he k2
    rw [if_neg hne2] at hf
    refine ⟨_, he, hf, ?_⟩
    rw [Get_eq _ (by rw [hl1, hn1]; exact hwf.1) (by rw [hn1]; exact hpos), hf,
      Get_eq kvs hwf.1 hpos]
  · obtain ⟨kvs1, he, hl1, hn1, _, hf⟩ := find_SetNX hwf.1 hpos k v ttl now
    have hf2 := hf k2
    rw [if_neg (fun h => hne2 h.1)] at hf2
    refine ⟨kvs1, _, he, hf2, ?_⟩
    rw [Get_eq _ (by rw [hl1, hn1]; exact hwf.1) (by rw [hn1]; exact hpos), hf2,
      Get_eq kvs hwf.1 hpos]
  · obtain ⟨i, s, _, _, he⟩ := Delete_eq kvs hwf.1 hpos k
    obtain ⟨hl1, hn1⟩ := shape_Delete he
    have hf := find_Delete kvs _ hwf.1 hpos k he k2
    rw [if_neg hne2] at hf
    refine ⟨_, he, hf, ?_⟩
    rw [Get_eq _ (by rw [hl1, hn1]; exact hwf.1) (by rw [hn1]; exact hpos), hf,
      Get_eq kvs hwf.1 hpos]

/-- Witness of C19: the keys `"a"` and `"c"`, which both route to shard 0 of the two-shard
store; `"a"` is present there. -/
theorem per_key_calls_are_framed_witness :
    ttlStore.WF ∧ 0 < ttlStore.numStores ∧ ([99] : Key) ≠ [97] ∧
      qhash [99] 2 = qhash [97] 2 ∧
      (∃ kvs1, ttlStore.Set [99] (some 7) 3 ⟨100⟩ = .ok kvs1 ∧
        kvs1.find [97] = ttlStore.find [97] ∧ kvs1.Get [97] = ttlStore.Get [97]) ∧
      (∃ kvs1 b, ttlStore.SetNX [99] (some 7) 3 ⟨100⟩ = .ok (kvs1, b) ∧
        kvs1.find [97] = ttlStore.find [97] ∧ kvs1.Get [97] = ttlStore.Get [97]) ∧
      (∃ kvs1, ttlStore.Delete [99] = .ok kvs1 ∧ kvs1.find [97] = ttlStore.find [97] ∧
        kvs1.Get [97] = ttlStore.Get [97]) :=
  ⟨ttlStore_reachable.wf.1, by decide, by decide, by decide,
    per_key_calls_are_framed ttlStore ttlStore_reachable.wf.1 (by decide) [99] [97]
      (by decide) (some 7) 3 ⟨100⟩⟩

/-- C17: in every state of a store built with `NumStores > 0`, `Set(k, v1, ttl1)` followed by
`Set(k, v2, ttl2)` yields the very store that `Set(k, v2, ttl2)` alone yields at the clock
reading of the second call; `Get(k)` then returns `(v2, true)`, the entry carries the
expiration of the second call only, `Len()` is what it was after the first `Set`, and with
`ttl1 > 0` and `ttl2 <= 0` the entry survives every later sequence of `Reap` calls and calls
on other keys. -/
theorem Set_overwrites_value_and_expiration {ns nr : Nat} (kvs : KVStore V)
    (hr : Reachable ns nr kvs) (hns : 0 < ns) (k : Key) (v1 v2 : Option V)
    (ttl1 ttl2 : Duration) (now1 now2 : Time) :
    ∃ a b, kvs.Set k v1 ttl1 now1 = .ok a ∧ a.Set k v2 ttl2 now2 = .ok b ∧
      kvs.Set k v2 ttl2 now2 = .ok b ∧ b.Get k = .ok (v2, true) ∧
      b.find k = some { val := v2,
                        expiry := (if ttl2 > 0 then now2.Add ttl2 else Time.zero) } ∧
      b.Len = a.Len ∧
      (0 < ttl1 → ttl2 ≤ 0 → ∀ calls : List (Op V × Time),
        (∀ c ∈ calls, c.1.key ≠ some k) →
        ∃ d, b.run calls = .ok d ∧ d.Get k = .ok (v2, true)) := by
  obtain ⟨hwf, hn⟩ := hr.wf
  have hpos : 0 < kvs.numStores := by rw [hn]; exact hns
  obtain ⟨i, s, hq, hs, hea⟩ := Set_eq kvs hwf.1 hpos k v1 ttl1 now1
  obtain ⟨j, s2, hq2, hs2, heb⟩ := Set_eq kvs hwf.1 hpos k v2 ttl2 now2
  rw [hq] at hq2
  injection hq2 with hij
  subst hij
  rw [hs] at hs2
  injection hs2 with hss
  subst hss
  have hi := lt_of_getElem?_some hs
  obtain ⟨hla, hna⟩ := shape_Set hea
  have hab : (kvs.putStore i (s.set k v1 ttl1 now1)).Set k v2 ttl2 now2 =
      .ok (kvs.putStore i (s.set k v2 ttl2 now2)) := by
    have hsa : (kvs.putStore i (s.set k v1 ttl1 now1)).stores[i]? =
        some (s.set k v1 ttl1 now1) := by
      simp [KVStore.putStore, List.getElem?_set_self hi]
    have hqa : qhash k (kvs.putStore i (s.set k v1 ttl1 now1)).numStores = .ok i := hq
    simp only [KVStore.Set, hqa, KVStore.getStore, hsa, putStore_putStore, set_set]
  obtain ⟨hlb, hnb⟩ := shape_Set heb
  have hlenb : (kvs.putStore i (s.set k v2 ttl2 now2)).stores.length =
      (kvs.putStore i (s.set k v2 ttl2 now2)).numStores := by
    rw [hlb, hnb]; exact hwf.1
  have hposb : 0 < (kvs.putStore i (s.set k v2 ttl2 now2)).numStores := by
    rw [hnb]; exact hpos
  have hfb := find_Set kvs _ hwf.1 hpos k v2 ttl2 now2 heb k
  rw [if_pos rfl] at hfb
  have hmk : item.make v2 ttl2 now2 =
      { val := v2, expiry := (if ttl2 > 0 then now2.Add ttl2 else Time.zero) } := by
    unfold item.make
    by_cases h : ttl2 > 0 <;> simp [h]
  refine ⟨_, _, hea, hab, heb, ?_, by rw [hfb, hmk], ?_, ?_⟩
  · rw [Get_eq _ hlenb hposb, hfb]
    simp [item.answer, make_val]
  · rw [Len_eq, Len_eq]
    congr 1
    exact Keys_putStore_congr kvs i (keys_set s k v2 v1 ttl2 ttl1 now2 now1)
  · intro _ httl2 calls hcalls
    have hz : (item.make v2 ttl2 now2).expiry = Time.zero := by
      unfold item.make
      rw [if_neg (not_lt.2 httl2)]
    obtain ⟨d, hrun, hfd, hld, hnd⟩ :=
      run_keeps_unexpiring k (item.make v2 ttl2 now2) hz calls _ hlenb hposb hcalls hfb
    refine ⟨d, hrun, ?_⟩
    rw [Get_eq d hld (by rw [hnd]; exact hposb), hfd]
    simp [item.answer, make_val]

/-- Witness of C17: `Set("test", 1, 5)` at clock reading 10 and `Set("test", 2, 0)` at
reading 20 on the fresh store of the tests. -/
theorem Set_overwrites_value_and_expiration_witness :
    Reachable 64 4 nkvs ∧ 0 < 64 ∧
      ∃ a b, nkvs.Set testKey (some 1) 5 ⟨10⟩ = .ok a ∧
        a.Set testKey (some 2) 0 ⟨20⟩ = .ok b ∧
        nkvs.Set testKey (some 2) 0 ⟨20⟩ = .ok b ∧ b.Get testKey = .ok (some 2, true) ∧
        b.find testKey =
          some ⟨some 2, if (0 : Duration) > 0 then (⟨20⟩ : Time).Add 0 else Time.zero⟩ ∧
        b.Len = a.Len ∧
        ((0 : Duration) < 5 → (0 : Duration) ≤ 0 → ∀ calls : List (Op Nat × Time),
          (∀ c ∈ calls, c.1.key ≠ some testKey) →
          ∃ d, b.run calls = .ok d ∧ d.Get testKey = .ok (some 2, true)) :=
  ⟨nkvs_reachable, by decide,
    Set_overwrites_value_and_expiration nkvs nkvs_reachable (by decide) testKey (some 1)
      (some 2) 5 0 ⟨10⟩ ⟨20⟩⟩

/-- C15: in every state of a store built with `NumStores > 0`, while the clock does not read
before the zero time of `time.Time` (the realtime clock reads from the Unix epoch on),
`Set(k, v, ttl)` with `ttl > 0` at reading `now` stores the expiration `now + ttl`, which is
not the zero time that stands for no expiration. A `Reap(true)` right after it whose sweeps
read `now + ttl` or later removes the entry and returns it; and after any calls on other
keys and `Reap` calls in between, a `Reap` at such readings leaves `Get(k)` at
`(nil, false)`. -/
theorem positive_ttl_entry_is_reaped {ns nr : Nat} (kvs : KVStore V)
    (hr : Reachable ns nr kvs) (hns : 0 < ns) (k : Key) (v : Option V) (ttl : Duration)
    (httl : 0 < ttl) (now : Time) (hnow : 0 ≤ now.ns) (clock : Nat → Time)
    (hlate : ∀ i, (now.Add ttl).ns ≤ (clock i).ns) (calls : List (Op V × Time))
    (hcalls : ∀ c ∈ calls, c.1.key ≠ some k) (results : Bool) :
    ∃ kvs1 kvs2 m, kvs.Set k v ttl now = .ok kvs1 ∧
      kvs1.find k = some { val := v, expiry := now.Add ttl } ∧
      (now.Add ttl).IsZero = false ∧
      (kvs1.Reap true clock).2 = some m ∧ m.lookup k = some v ∧
      (kvs1.Reap true clock).1.Get k = .ok (none, false) ∧
      kvs1.run calls = .ok kvs2 ∧
      (kvs2.Reap results clock).1.Get k = .ok (none, false) := by
  obtain ⟨hwf, hn⟩ := hr.wf
  have hpos : 0 < kvs.numStores := by rw [hn]; exact hns
  obtain ⟨i, s, _, _, he⟩ := Set_eq kvs hwf.1 hpos k v ttl now
  obtain ⟨hl1, hn1⟩ := shape_Set he
  have hwf1 := wf_Set hwf he
  have hpos1 : 0 < (kvs.putStore i (s.set k v ttl now)).numStores := by
    rw [hn1]; exact hpos
  have hmk : item.make v ttl now = { val := v, expiry := now.Add ttl } := by
    unfold item.make
    rw [if_pos httl]
  have hf : (kvs.putStore i (s.set k v ttl now)).find k =
      some { val := v, expiry := now.Add ttl } := by
    rw [find_Set kvs _ hwf.1 hpos k v ttl now he k, if_pos rfl, hmk]
  have hnz : (now.Add ttl).IsZero = false := by
    unfold Time.IsZero Time.Add
    simp only [beq_eq_false_iff_ne, ne_eq]
    intro h0
    have h1 : (0 : Int) < ttl := httl
    have h2 : now.ns + ttl = 0 := h0
    omega
  have hsw : ∀ j, ({ val := v, expiry := now.Add ttl } : item V).swept (clock j) = true := by
    intro j
    unfold item.swept Time.After
    simp only [hnz, Bool.false_or, Bool.not_eq_true', decide_eq_false_iff_not, not_lt]
    exact hlate j
  have hgone : ∀ (x : KVStore V) (res : Bool), x.stores.length = x.numStores →
      0 < x.numStores →
      (x.find k = none ∨ x.find k = some { val := v, expiry := now.Add ttl }) →
      (x.Reap res clock).1.Get k = .ok (none, false) := by
    intro x res hlx hpx hfx
    obtain ⟨h1, h2⟩ := shape_Reap x res clock
    obtain ⟨j, hj⟩ := find_Reap x res clock k
    rw [Get_eq _ (by rw [h1, h2]; exact hlx) (by rw [h2]; exact hpx), hj]
    rcases hfx with h | h
    · rw [h]; rfl
    · rw [h]; simp [Option.filter, hsw j, item.answer]
  obtain ⟨m, hm, hiff⟩ := Reap_result_entryAt hwf1 clock k v
  obtain ⟨i0, hi0⟩ := find_entryAt hf
  obtain ⟨kvs2, hrun, hf2, hlen2, hn2⟩ :=
    run_keeps_or_reaps k { val := v, expiry := now.Add ttl } calls _ hwf1.1 hpos1 hcalls
      (Or.inr hf)
  exact ⟨_, kvs2, m, he, hf, hnz, hm, hiff.2 ⟨i0, _, hi0, hsw i0, rfl⟩,
    hgone _ true hwf1.1 hpos1 (Or.inr hf), hrun,
    hgone kvs2 results hlen2 (by rw [hn2]; exact hpos1) hf2⟩

/-- Witness of C15 on the test `TestTTL`: `Set("test", 2, 1s)` when the realtime clock reads
1700000000 s after the Unix epoch, a `Set` of another key, and a `Reap` two seconds later
whose sweep of shard `i` reads `i` nanoseconds after the start of the call. -/
theorem positive_ttl_entry_is_reaped_witness :
    Reachable 64 4 nkvs ∧ 0 < 64 ∧ (0 : Duration) < 1000000000 ∧
      0 ≤ (getTimeCoarse ⟨1700000000, 0⟩).ns ∧
      (∀ i : Nat, ((getTimeCoarse ⟨1700000000, 0⟩).Add 1000000000).ns ≤
        (getTimeCoarse ⟨1700000002, i⟩).ns) ∧
      (∀ c ∈ [((Op.Set [97] (some 3) 0 : Op Nat), getTimeCoarse ⟨1700000000, 5⟩)],
        c.1.key ≠ some testKey) ∧
      ∃ kvs1 kvs2 m,
        nkvs.Set testKey (some 2) 1000000000 (getTimeCoarse ⟨1700000000, 0⟩) = .ok kvs1 ∧
        kvs1.find testKey =
          some ⟨some 2, (getTimeCoarse ⟨1700000000, 0⟩).Add 1000000000⟩ ∧
        ((getTimeCoarse ⟨1700000000, 0⟩).Add 1000000000).IsZero = false ∧
        (kvs1.Reap true (fun i => getTimeCoarse ⟨1700000002, i⟩)).2 = some m ∧
        m.lookup testKey = some (some 2) ∧
        (kvs1.Reap true (fun i => getTimeCoarse ⟨1700000002, i⟩)).1.Get testKey =
          .ok (none, false) ∧
        kvs1.run [(.Set [97] (some 3) 0, getTimeCoarse ⟨1700000000, 5⟩)] = .ok kvs2 ∧
        (kvs2.Reap true (fun i => getTimeCoarse ⟨1700000002, i⟩)).1.Get testKey =
          .ok (none, false) :=
  have hlate : ∀ i : Nat, ((getTimeCoarse ⟨1700000000, 0⟩).Add 1000000000).ns ≤
      (getTimeCoarse ⟨1700000002, i⟩).ns := by
    intro i
    show (1700000000 + unixToInternal) * 1000000000 + 0 + 1000000000 ≤
      (1700000002 + unixToInternal) * 1000000000 + (i : Int)
    rw [unixToInternal_eq]
    omega
  ⟨nkvs_reachable, by decide, by decide,
    getTimeCoarse_nonneg _ (by decide) (by decide), hlate, by decide,
    positive_ttl_entry_is_reaped nkvs nkvs_reachable (by decide) testKey (some 2)
      1000000000 (by decide) (getTimeCoarse ⟨1700000000, 0⟩)
      (getTimeCoarse_nonneg _ (by decide) (by decide))
      (fun i => getTimeCoarse ⟨1700000002, i⟩) hlate _ (by decide) true⟩

/-- C12: in every reachable store state and for all clock readings of the shard sweeps,
`Reap(true)` returns a map with as many entries as the store lost: `Len()` before the call
is `Len()` after it plus the number of entries of the returned map. -/
theorem Len_before_Reap_is_Len_after_plus_removed {ns nr : Nat} (kvs : KVStore V)
    (hr : Reachable ns nr kvs) (clock : Nat → Time) :
    ∃ m, (kvs.Reap true clock).2 = some m ∧
      kvs.Len = (kvs.Reap true clock).1.Len + m.entries.length := by
  obtain ⟨hwf, _⟩ := hr.wf
  refine ⟨_, Reap_result_true kvs clock, ?_⟩
  rw [merged_length clock kvs.stores ∅ (wf_pairwise hwf)
    (fun _ _ k _ hmem => AList.not_mem_empty k hmem), Len_eq_sum, Len_eq_sum]
  have h1 : (kvs.Reap true clock).1.stores =
      kvs.stores.map (fun s => (s.reap true (clock s.num)).1) := by
    simp [KVStore.Reap, reapStores_fst]
  rw [h1, List.map_map, sum_length_split clock kvs.stores]
  simp [Function.comp_def]

/-- Witness of C12 on the two-shard store whose entries both expire at 105, reaped with the
sweep of shard 0 reading 104 and the sweep of shard 1 reading 105. -/
theorem Len_before_Reap_is_Len_after_plus_removed_witness :
    Reachable 2 4 sameExpiryStore ∧
      ∃ m, (sameExpiryStore.Reap true splitClock).2 = some m ∧
        sameExpiryStore.Len = (sameExpiryStore.Reap true splitClock).1.Len +
          m.entries.length :=
  ⟨sameExpiryStore_reachable,
    Len_before_Reap_is_Len_after_plus_removed sameExpiryStore sameExpiryStore_reachable
      splitClock⟩

end Kvstore
